import Mathlib

/-!
# appcache-sw-polyfill: `sw.js`

A shallow embedding of the service worker `src/sw.js` and proofs about its
version lifecycle: cache naming, newest-version selection, pruning, the
all-or-nothing build, the update check, client pinning and the fetch fallback.

Conventions of the embedding.

* A JavaScript string is the list of its code units (`JsString`).
* The numbers the worker handles are cache versions and differences of
  versions.  A `JsNum` is `NaN`, an infinity, or the integer value of a finite
  Number; `-0` is not told apart from `0`, which print alike and compare
  alike.  A mathematical integer becomes a Number through `toDouble`, the
  rounding to 53 significant bits with ties to even; a Number becomes a string
  through `NumberToString`, the shortest digits that read back as the same
  Number, in plain notation below `10 ^ 21` and in exponent notation from
  there on.
* The global `self.registration.scope` is the explicit parameter `scope`.
* `caches` (the CacheStorage of the origin) is an association list from cache
  name to cache contents, in creation order.  Every function that touches the
  store or the network threads a `World`, which also records the store
  operations performed and the requests issued, oldest first.
* A promise chain is run to completion in one go, with two exceptions.
  `GetCacheForClientId` is split at its suspension on `FindNewestCache` and
  driven by an explicit event-driven transition system.  The fetch listener
  runs what it does synchronously (it lists the keys and starts the update
  check, whose request for `offline.js` goes out) before the chain it gives
  to `respondWith`; the rest of the update check is `CheckForUpdate_then`.
  `Wait` (a timer) and `console.log` have no effect on the modelled state.
-/

namespace SW

/-! ## Strings and numbers -/

/-- A JavaScript string: the sequence of its code units. -/
abbrev JsString := List Char

/-- A JavaScript Number as the worker meets it: `NaN`, a finite Number with
an integer value, or an infinity (`inf true` is `-Infinity`). -/
inductive JsNum where
  | nan : JsNum
  | num : Int → JsNum
  | inf : Bool → JsNum
  deriving DecidableEq, Repr

/-- The test `s.indexOf(t) === 0`: `t` occurs in `s` at position 0. -/
def indexOfIsZero (s t : JsString) : Bool := t.isPrefixOf s

/-- The call `s.substr(n)` for `0 ≤ n`: `s` without its first `n` code units. -/
def substr (s : JsString) (n : Nat) : JsString := s.drop n

/-- Truthiness of a string: `!s` holds exactly for the empty string. -/
def truthy (s : JsString) : Bool := !s.isEmpty

/-- Code points of `StrWhiteSpaceChar` (white space and line terminators),
which `parseInt` skips at the start of its input. -/
def isStrWhiteSpaceChar (c : Char) : Bool :=
  let n := c.toNat
  n = 0x9 || n = 0xA || n = 0xB || n = 0xC || n = 0xD || n = 0x20 || n = 0xA0 ||
  n = 0x1680 || (0x2000 ≤ n && n ≤ 0x200A) || n = 0x2028 || n = 0x2029 ||
  n = 0x202F || n = 0x205F || n = 0x3000 || n = 0xFEFF

/-- Value of a code unit as a digit (`0-9`, `a-z`, `A-Z`), if it is one. -/
def digitValue (c : Char) : Option Nat :=
  let n := c.toNat
  if 48 ≤ n ∧ n ≤ 57 then some (n - 48)
  else if 97 ≤ n ∧ n ≤ 122 then some (n - 87)
  else if 65 ≤ n ∧ n ≤ 90 then some (n - 55)
  else none

/-- Whether a code unit is a digit of radix `R`. -/
def isRadixDigit (R : Nat) (c : Char) : Bool :=
  match digitValue c with
  | some d => decide (d < R)
  | none => false

/-- The mathematical integer written by the radix-`R` digits `Z`. -/
def digitsToNat (R : Nat) (Z : JsString) : Nat :=
  Z.foldl (fun acc c => acc * R + (digitValue c).getD 0) 0

/-- Step of `parseInt` that removes a leading `0x` / `0X` and switches to
radix 16 (the radix argument is absent, so the default radix is 10). -/
def stripHexMarker (S : JsString) : Nat × JsString :=
  match S with
  | c0 :: c1 :: rest =>
    if c0 = '0' ∧ (c1 = 'x' ∨ c1 = 'X') then (16, rest) else (10, S)
  | _ => (10, S)

/-- Number of binary digits of `m`; the first argument is fuel. -/
def bitLengthAux : Nat → Nat → Nat
  | 0, _ => 0
  | fuel + 1, m => if m = 0 then 0 else bitLengthAux fuel (m / 2) + 1

/-- Number of binary digits of `m`. -/
def bitLength (m : Nat) : Nat := bitLengthAux m m

/-- Round a natural number to 53 significant bits, ties to even: the value
of the nearest Number, were the exponent unbounded. -/
def roundNat (m : Nat) : Nat :=
  if bitLength m ≤ 53 then m
  else
    let e := bitLength m - 53
    let q := m / 2 ^ e
    let rest := m % 2 ^ e
    let half := 2 ^ (e - 1)
    if half < rest ∨ (rest = half ∧ q % 2 = 1) then (q + 1) * 2 ^ e else q * 2 ^ e

/-- The Number nearest to the mathematical integer `z`: an infinity when the
rounded value needs more than 1024 bits. -/
def toDouble (z : Int) : JsNum :=
  let r := roundNat z.natAbs
  if 1024 < bitLength r then JsNum.inf (decide (z < 0))
  else JsNum.num (if z < 0 then -(r : Int) else r)

/-- The integer `z` is the value of a Number. -/
def isNumber (z : Int) : Prop := toDouble z = JsNum.num z

/-- The builtin `parseInt(s)` called with one argument: skip leading white
space, read an optional sign, an optional hex marker, then the longest run of
digits; no digit at all gives `NaN`, otherwise the Number nearest to the
integer read. (An engine may read the decimal digits after the 20th as
zeros; here every digit counts. The strings the worker prints have nothing
but zeros there.) -/
def parseInt (s : JsString) : JsNum :=
  let S := s.dropWhile isStrWhiteSpaceChar
  let sign : Int := if S.head? = some '-' then -1 else 1
  let S := if S.head? = some '+' ∨ S.head? = some '-' then S.tail else S
  let RS := stripHexMarker S
  let Z := RS.2.takeWhile (isRadixDigit RS.1)
  if Z.isEmpty then JsNum.nan else toDouble (sign * (digitsToNat RS.1 Z : Int))

/-- Number of decimal digits of `m`. -/
def digitCount (m : Nat) : Nat := (Nat.toDigits 10 m).length

/-- The decimals `s × 10 ^ j`, given as pairs `(s, j)`, with `s` of `k` digits
that lie nearest to `z`: the greatest one with a digit less than `z` in
front of the point, the two around `z`, and the least one with a digit more. -/
def candidates (z k : Nat) : List (Nat × Nat) :=
  let d := digitCount z
  (if k + 1 ≤ d then [(10 ^ k - 1, d - 1 - k)] else []) ++
  (if k ≤ d then [(z / 10 ^ (d - k), d - k), (z / 10 ^ (d - k) + 1, d - k)] else []) ++
  (if k ≤ d + 1 then [(10 ^ (k - 1), d + 1 - k)] else [])

/-- The decimal `c` has `k` digits and reads back as the Number `z`. -/
def isValid (z k : Nat) (c : Nat × Nat) : Bool :=
  decide (10 ^ (k - 1) ≤ c.1 ∧ c.1 < 10 ^ k ∧ roundNat (c.1 * 10 ^ c.2) = z)

/-- How far the decimal `c` is from `z`. -/
def distance (z : Nat) (c : Nat × Nat) : Nat :=
  if c.1 * 10 ^ c.2 ≤ z then z - c.1 * 10 ^ c.2 else c.1 * 10 ^ c.2 - z

/-- The decimal `c` is to be preferred to `c2`: it is closer to `z`, or as
close and with even digits. -/
def closer (z : Nat) (c c2 : Nat × Nat) : Bool :=
  decide (distance z c < distance z c2 ∨ (distance z c = distance z c2 ∧ c.1 % 2 = 0))

/-- The preferred decimal of a list. -/
def closest (z : Nat) : List (Nat × Nat) → Option (Nat × Nat)
  | [] => none
  | c :: cs =>
    match closest z cs with
    | none => some c
    | some c2 => some (if closer z c c2 then c else c2)

/-- The preferred decimal for the first digit count of the list that has one
reading back as `z`; the digits of `z` itself when there is none. -/
def shortestFrom (z : Nat) : List Nat → Nat × Nat
  | [] => (z, 0)
  | k :: ks =>
    match closest z ((candidates z k).filter (isValid z k)) with
    | some c => c
    | none => shortestFrom z ks

/-- The shortest decimal that reads back as the Number `z`; 17 digits are
always enough. -/
def shortest (z : Nat) : Nat × Nat := shortestFrom z (List.range' 1 17)

/-- Number-to-string conversion of a non-negative finite Number with an
integer value: the digits of the shortest decimal followed by its zeros when
that makes at most 21 digits, exponent notation otherwise. -/
def natToString (m : Nat) : JsString :=
  let c := shortest m
  let digits := Nat.toDigits 10 c.1
  let k := digits.length
  let n := k + c.2
  if n ≤ 21 then digits ++ List.replicate c.2 '0'
  else if k = 1 then digits ++ "e+".toList ++ Nat.toDigits 10 (n - 1)
  else digits.take 1 ++ ['.'] ++ digits.drop 1 ++ "e+".toList ++ Nat.toDigits 10 (n - 1)

/-- Number-to-string conversion, as performed by `"-v" + version`. -/
def NumberToString : JsNum → JsString
  | JsNum.nan => "NaN".toList
  | JsNum.inf negative => if negative then "-Infinity".toList else "Infinity".toList
  | JsNum.num z => if z < 0 then '-' :: natToString z.natAbs else natToString z.natAbs

/-- The comparator `SortAscending(a, b)`: the difference `a - b`, rounded to
a Number; `NaN` as soon as one side is, or for two equal infinities. -/
def SortAscending : JsNum → JsNum → JsNum
  | JsNum.num a, JsNum.num b => toDouble (a - b)
  | JsNum.inf s, JsNum.num _ => JsNum.inf s
  | JsNum.num _, JsNum.inf s => JsNum.inf (!s)
  | JsNum.inf s, JsNum.inf t => if s = t then JsNum.nan else JsNum.inf s
  | _, _ => JsNum.nan

/-- Whether a comparator result asks for the first argument to go after the
second, i.e. it is a number greater than zero (`NaN` counts as `+0`). -/
def isPositive : JsNum → Bool
  | JsNum.num z => decide (0 < z)
  | JsNum.inf negative => !negative
  | JsNum.nan => false

/-- The builtin `Array.prototype.sort(comparefn)` as a stable insertion sort:
an element moves behind another only when the comparator says so. Every
sort that follows the language specification gives this result when the
comparator is consistent, that is here when no `NaN` and no two equal
infinities are compared. With such values in the list the specification
leaves the order to the engine; the insertion order taken here is one
possible outcome, and no property below relies on it. -/
def arraySort (comparefn : JsNum → JsNum → JsNum) (l : List JsNum) : List JsNum :=
  l.insertionSort (fun a b => isPositive (comparefn a b) = false)

/-! ## Cache names -/

def CACHE_NAME_PREFIX : JsString := "offline".toList

/-- The name prefix, a dash, then the scope of the registration. -/
def GetCacheBaseName (scope : JsString) : JsString :=
  CACHE_NAME_PREFIX ++ "-".toList ++ scope

/-- The base name, then `-v`, then the version printed as a number. -/
def GetCacheVersionName (scope : JsString) (version : JsNum) : JsString :=
  GetCacheBaseName scope ++ "-v".toList ++ NumberToString version

/-- Remove the scope from the main page URL; a URL equal to the scope is left
in its complete form. -/
def NormalizeMainPageUrl (scope : JsString) (url : JsString) : JsString :=
  if indexOfIsZero url scope then
    let url := substr url scope.length
    if !truthy url then scope else url
  else url

/-! ## The cache store, the network and the world -/

/-- The manifest `offline.js`: a version and the list of files to cache. -/
structure Manifest where
  version : Int
  files : List JsString
  deriving DecidableEq, Repr

/-- The fields of a `Response` the worker reads.  `json` is the value
`response.json()` resolves to when the body is a manifest, absent when it
rejects. -/
structure Response where
  ok : Bool
  url : JsString
  statusText : JsString
  json : Option Manifest
  deriving DecidableEq, Repr

/-- The `cache` option of a request. -/
inductive CacheMode where
  | default | reload | noStore
  deriving DecidableEq, Repr

/-- The `mode` of a request. -/
inductive RequestMode where
  | navigate | noCors | cors | sameOrigin
  deriving DecidableEq, Repr

structure Request where
  url : JsString
  cache : CacheMode
  mode : RequestMode
  deriving DecidableEq, Repr

/-- How a `fetch` promise settles; chosen by the network, not by the worker. -/
inductive FetchOutcome where
  | rejected : FetchOutcome
  | resolved : Response → FetchOutcome
  deriving DecidableEq, Repr

/-- The errors thrown or passed on by the worker. -/
inductive SwError where
  | fetchRejected : SwError
  | wrongNumberOfResponses : SwError
  | failedToFetch (url statusText : JsString) : SwError
  | notOk (statusText : JsString) : SwError
  | jsonRejected : SwError
  deriving DecidableEq, Repr

/-- A `Cache` object, identified by the name of the store entity behind it. -/
abbrev Cache := JsString

/-- The entries of one cache: request URL (as given to `put`) and response. -/
abbrev CacheEntries := List (JsString × Response)

/-- An operation on `caches` or on a `Cache` object. -/
inductive StoreOp where
  | keys : StoreOp
  | has (name : JsString) : StoreOp
  | openCache (name : JsString) : StoreOp
  | deleteCache (name : JsString) : StoreOp
  | put (cache : Cache) (request : JsString) (response : Response) : StoreOp
  | matchRequest (cache : Cache) (request : Request) : StoreOp
  deriving DecidableEq, Repr

/-- The state outside the worker: the cache store, the store operations
performed so far and the requests handed to `fetch` so far. -/
structure World where
  caches : List (JsString × CacheEntries)
  ops : List StoreOp
  fetched : List Request
  deriving DecidableEq, Repr

/-- The call `caches.keys()`. -/
def cachesKeys (w : World) : List JsString × World :=
  (w.caches.map Prod.fst, { w with ops := w.ops ++ [StoreOp.keys] })

/-- The call `caches.has(name)`. -/
def cachesHas (name : JsString) (w : World) : Bool × World :=
  (w.caches.any (fun e => decide (e.1 = name)), { w with ops := w.ops ++ [StoreOp.has name] })

/-- The call `caches.open(name)`: the cache is created, empty, when absent. -/
def cachesOpen (name : JsString) (w : World) : Cache × World :=
  (name,
   { w with
     caches := if w.caches.any (fun e => decide (e.1 = name)) then w.caches
               else w.caches ++ [(name, [])]
     ops := w.ops ++ [StoreOp.openCache name] })

/-- The call `caches.delete(name)`; deleting an absent cache changes nothing. -/
def cachesDelete (name : JsString) (w : World) : World :=
  { w with
    caches := w.caches.filter (fun e => decide (e.1 ≠ name))
    ops := w.ops ++ [StoreOp.deleteCache name] }

/-- The call `cache.put(request, response)`: an entry for the same request is
replaced. -/
def cachePut (cache : Cache) (request : JsString) (response : Response) (w : World) : World :=
  { w with
    caches := w.caches.map (fun e =>
      if e.1 = cache then
        (e.1, e.2.filter (fun p => decide (p.1 ≠ request)) ++ [(request, response)])
      else e)
    ops := w.ops ++ [StoreOp.put cache request response] }

/-- The call `cache.match(request)`: the stored response, or nothing. -/
def cacheMatch (cache : Cache) (request : Request) (w : World) : Option Response × World :=
  ((w.caches.lookup cache).bind (fun entries => entries.lookup request.url),
   { w with ops := w.ops ++ [StoreOp.matchRequest cache request] })

/-- The call `fetch(request)`: the request goes out. -/
def fetch (request : Request) (w : World) : World :=
  { w with fetched := w.fetched ++ [request] }

/-- The builtin `Promise.all` on settled fetch promises: every value, in
order, or a rejection as soon as one promise rejected. -/
def PromiseAll : List FetchOutcome → Except SwError (List Response)
  | [] => Except.ok []
  | FetchOutcome.rejected :: _ => Except.error SwError.fetchRejected
  | FetchOutcome.resolved r :: rest =>
    match PromiseAll rest with
    | Except.ok rs => Except.ok (r :: rs)
    | Except.error e => Except.error e

/-! ## Fetching the manifest and building a cache -/

/-- The request `fetch("offline.js?r=" + rand, { cache: "no-store" })` makes. -/
def offlineJsRequest (rand : Nat) : Request :=
  { url := "offline.js?r=".toList ++ NumberToString (JsNum.num rand),
    cache := CacheMode.noStore, mode := RequestMode.cors }

/-- Fetch `offline.js` with a random query string and `no-store`; a response
that is not OK, or whose body is no manifest, rejects.  `rand` is the value
of `Math.floor(Math.random() * 1000000)`. -/
def FetchOfflineJs (rand : Nat) (settled : FetchOutcome) (w : World) :
    Except SwError Manifest × World :=
  let w := fetch (offlineJsRequest rand) w
  match settled with
  | FetchOutcome.rejected => (Except.error SwError.fetchRejected, w)
  | FetchOutcome.resolved response =>
    if !response.ok then (Except.error (SwError.notOk response.statusText), w)
    else
      match response.json with
      | none => (Except.error SwError.jsonRejected, w)
      | some data => (Except.ok data, w)

def OpenCacheForVersion (scope : JsString) (version : Int) (w : World) : Cache × World :=
  let cacheName := GetCacheVersionName scope (JsNum.num version)
  cachesOpen cacheName w

/-- The request `new Request(f, { cache: cacheMode, mode: "no-cors" })`. -/
def fileRequest (cacheMode : CacheMode) (f : JsString) : Request :=
  { url := f, cache := cacheMode, mode := RequestMode.noCors }

/-- Fetch every file of the list, check that the set of responses is complete
and successful, then open the cache of the version and write every pair.
`settled` lists how the fetch promises settled, in the order of the files. -/
def CacheFileList (scope : JsString) (jsonData : Manifest) (isFirstLoad : Bool)
    (settled : List FetchOutcome) (w : World) : Except SwError Unit × World :=
  let cacheMode := if isFirstLoad then CacheMode.default else CacheMode.reload
  let fileList := jsonData.files
  let w := (fileList.map (fileRequest cacheMode)).foldl (fun w request => fetch request w) w
  match PromiseAll settled with
  | Except.error e => (Except.error e, w)
  | Except.ok responseList =>
    if responseList.length ≠ fileList.length then
      (Except.error SwError.wrongNumberOfResponses, w)
    else
      match responseList.find? (fun r => !r.ok) with
      | some r => (Except.error (SwError.failedToFetch r.url r.statusText), w)
      | none =>
        -- Wait(1000), then open the cache and write every pair
        let cw := OpenCacheForVersion scope jsonData.version w
        let w := (List.zip fileList responseList).foldl
          (fun w p => cachePut cw.1 p.1 p.2 w) cw.2
        (Except.ok (), w)

/-! ## Finding the newest cache -/

/-- The version list computed alike by `FindNewestCache` and
`FindNewestCacheAndDeleteOlder`: keep the keys that start with the base name
and `-v`, parse what follows, sort ascending. -/
def sortedVersionList (scope : JsString) (keyList : List JsString) : List JsNum :=
  let baseNameV := GetCacheBaseName scope ++ "-v".toList
  let relevantCaches := keyList.filter (fun k => indexOfIsZero k baseNameV)
  let versionList := relevantCaches.map (fun k => parseInt (substr k baseNameV.length))
  arraySort SortAscending versionList

def FindNewestCache (scope : JsString) (w : World) : Option Cache × World :=
  let kw := cachesKeys w
  let versionList := sortedVersionList scope kw.1
  match versionList.getLast? with
  | none => (none, kw.2)
  | some newest =>
    let newestCacheName := GetCacheVersionName scope newest
    let cw := cachesOpen newestCacheName kw.2
    (some cw.1, cw.2)

def FindNewestCacheAndDeleteOlder (scope : JsString) (w : World) : Option Cache × World :=
  let kw := cachesKeys w
  let versionList := sortedVersionList scope kw.1
  -- delete all except for the newest version
  let w := (versionList.dropLast.map (GetCacheVersionName scope)).foldl
    (fun w cacheName => cachesDelete cacheName w) kw.2
  match versionList.getLast? with
  | none => (none, w)
  | some newest =>
    let newestCacheName := GetCacheVersionName scope newest
    let cw := cachesOpen newestCacheName w
    (some cw.1, cw.2)

/-! ## Fetch event code: binding a client to a cache -/

/-- A client id as a fetch event carries it: `none` is `null`. -/
abbrev ClientId := Option JsString

/-- The test `!clientId` fails: the id is neither `null` nor empty. -/
def clientIdTruthy : ClientId → Bool
  | none => false
  | some s => truthy s

/-- The global `clientIdToCache`: a JavaScript `Map` from client id to the
cache recorded for it (possibly `null`), in insertion order. -/
abbrev ClientMap := List (ClientId × Option Cache)

def mapHas (m : ClientMap) (clientId : ClientId) : Bool :=
  m.any (fun e => decide (e.1 = clientId))

def mapGet (m : ClientMap) (clientId : ClientId) : Option Cache :=
  match m.find? (fun e => decide (e.1 = clientId)) with
  | some e => e.2
  | none => none

/-- The call `Map.prototype.set`: the value of a present key is replaced in
place, an absent key is appended. -/
def mapSet (m : ClientMap) (clientId : ClientId) (cache : Option Cache) : ClientMap :=
  if mapHas m clientId then
    m.map (fun e => if e.1 = clientId then (e.1, cache) else e)
  else m ++ [(clientId, cache)]

/-- Where the synchronous part of `GetCacheForClientId` ends: with a resolved
promise, or suspended on `FindNewestCache()`. -/
inductive Started where
  | resolved : Option Cache → Started
  | awaitingFindNewestCache : Started
  deriving DecidableEq, Repr

/-- The part of `GetCacheForClientId` that runs before any suspension. -/
def GetCacheForClientId_start (m : ClientMap) (clientId : ClientId) : Started :=
  if !clientIdTruthy clientId then Started.resolved none
  else if mapHas m clientId then Started.resolved (mapGet m clientId)
  else Started.awaitingFindNewestCache

/-- The continuation of `GetCacheForClientId` run when `FindNewestCache()` has
resolved with `cache`: check the map again, and record `cache` only when the
client still has no entry. -/
def GetCacheForClientId_then (m : ClientMap) (clientId : ClientId) (cache : Option Cache) :
    Option Cache × ClientMap :=
  if mapHas m clientId then (mapGet m clientId, m)
  else (cache, mapSet m clientId cache)

/-- The state of the worker as far as `GetCacheForClientId` goes: the map,
the calls suspended on their lookup, and the calls that resolved, with their
results, oldest first. -/
structure Binder where
  clientIdToCache : ClientMap
  waiting : List ClientId
  returned : List (ClientId × Option Cache)
  deriving DecidableEq, Repr

/-- What can happen next: a new call arrives, the lookup of the `i`-th
suspended call resolves with whatever cache is the newest at that moment, or
it rejects. -/
inductive Event where
  | call (clientId : ClientId) : Event
  | lookupResolved (i : Nat) (cache : Option Cache) : Event
  | lookupRejected (i : Nat) : Event
  deriving DecidableEq, Repr

/-- One uninterrupted run of worker code. -/
def step (b : Binder) : Event → Binder
  | Event.call clientId =>
    match GetCacheForClientId_start b.clientIdToCache clientId with
    | Started.resolved r => { b with returned := b.returned ++ [(clientId, r)] }
    | Started.awaitingFindNewestCache => { b with waiting := b.waiting ++ [clientId] }
  | Event.lookupResolved i cache =>
    match b.waiting.get? i with
    | none => b
    | some clientId =>
      let rm := GetCacheForClientId_then b.clientIdToCache clientId cache
      { clientIdToCache := rm.2
        waiting := b.waiting.eraseIdx i
        returned := b.returned ++ [(clientId, rm.1)] }
  | Event.lookupRejected i => { b with waiting := b.waiting.eraseIdx i }

/-- Any interleaving of calls and lookup completions. -/
def run (b : Binder) (events : List Event) : Binder := events.foldl step b

/-- The worker right after start-up: `clientIdToCache = new Map()`. -/
def Binder.initial : Binder := { clientIdToCache := [], waiting := [], returned := [] }

/-- A call of `GetCacheForClientId` that nothing interleaves with: its lookup
is the `FindNewestCache` of the current store. -/
def GetCacheForClientId (scope : JsString) (clientId : ClientId) (m : ClientMap) (w : World) :
    Option Cache × ClientMap × World :=
  match GetCacheForClientId_start m clientId with
  | Started.resolved r => (r, m, w)
  | Started.awaitingFindNewestCache =>
    let cw := FindNewestCache scope w
    let rm := GetCacheForClientId_then m clientId cw.1
    (rm.1, rm.2, cw.2)

def MatchRequestForClientCache (scope : JsString) (request : Request) (clientId : ClientId)
    (m : ClientMap) (w : World) : Option Response × ClientMap × World :=
  let cmw := GetCacheForClientId scope clientId m w
  match cmw.1 with
  | none => (none, cmw.2.1, cmw.2.2)
  | some cache =>
    let rw := cacheMatch cache request cmw.2.2
    (rw.1, cmw.2.1, rw.2)

/-- What `event.respondWith` is given: a response taken from a cache, or the
promise of `fetch(request)`. -/
inductive Served where
  | response : Response → Served
  | network : Request → Served
  deriving DecidableEq, Repr

/-- Return `response` if it is provided, otherwise make the request. -/
def ReturnResponseOrFetch (request : Request) (response : Option Response) (w : World) :
    Served × World :=
  match response with
  | some r => (Served.response r, w)
  | none => (Served.network request, fetch request w)

structure FetchEvent where
  request : Request
  clientId : ClientId
  deriving DecidableEq, Repr

/-- The continuation of `FindNewestCacheAndDeleteOlder` run when
`caches.keys()` has resolved with `keyList`. -/
def FindNewestCacheAndDeleteOlder_then (scope : JsString) (keyList : List JsString)
    (w : World) : Option Cache × World :=
  let versionList := sortedVersionList scope keyList
  -- delete all except for the newest version
  let w := (versionList.dropLast.map (GetCacheVersionName scope)).foldl
    (fun w cacheName => cachesDelete cacheName w) w
  match versionList.getLast? with
  | none => (none, w)
  | some newest =>
    let newestCacheName := GetCacheVersionName scope newest
    let cw := cachesOpen newestCacheName w
    (some cw.1, cw.2)

/-- The part of `CheckForUpdate` that runs before its first suspension: the
main page URL is normalized and `FetchOfflineJs()` hands its request to
`fetch`. The result is the normalized URL the check goes on with. -/
def CheckForUpdate_start (scope : JsString) (mainPageUrl : JsString) (rand : Nat)
    (w : World) : JsString × World :=
  (NormalizeMainPageUrl scope mainPageUrl, fetch (offlineJsRequest rand) w)

/-- The outcome of the fetch listener: what `respondWith` received, the
normalized main page URL of the update check the listener started (the check
is suspended on its request for `offline.js` and goes on outside of the fetch
event, as `CheckForUpdate_then`), the map and the world. -/
structure Handled where
  respondWith : Served
  checkForUpdate : Option JsString
  clientIdToCache : ClientMap
  world : World
  deriving DecidableEq, Repr

/-- The `fetch` event listener. `rand` is the random number of the update
check. In the navigation branch the listener itself calls `caches.keys()`
(the start of `FindNewestCacheAndDeleteOlder`) and then starts
`CheckForUpdate`, whose request for `offline.js` goes out at once; the promise
chain given to `respondWith` runs after that. -/
def onFetch (scope : JsString) (event : FetchEvent) (rand : Nat) (m : ClientMap) (w : World) :
    Handled :=
  if indexOfIsZero event.request.url scope then
    if event.request.mode = RequestMode.navigate then
      -- synchronous part of the listener
      let kw := cachesKeys w
      let uw := CheckForUpdate_start scope event.request.url rand kw.2
      -- the promise chain given to respondWith
      let cw := FindNewestCacheAndDeleteOlder_then scope kw.1 uw.2
      let rw : Option Response × World :=
        match cw.1 with
        | some cache => cacheMatch cache event.request cw.2
        | none => (none, cw.2)
      let sw := ReturnResponseOrFetch event.request rw.1 rw.2
      { respondWith := sw.1, checkForUpdate := some uw.1,
        clientIdToCache := m, world := sw.2 }
    else
      let rmw := MatchRequestForClientCache scope event.request event.clientId m w
      let sw := ReturnResponseOrFetch event.request rmw.1 rmw.2.2
      { respondWith := sw.1, checkForUpdate := none,
        clientIdToCache := rmw.2.1, world := sw.2 }
  else
    { respondWith := Served.network event.request, checkForUpdate := none,
      clientIdToCache := m, world := fetch event.request w }

/-! ## Update check and activation -/

/-- The statement `if (mainPageUrl) jsonData.files.unshift(mainPageUrl)` of
`CheckForUpdate` and of the activate listener. -/
def unshiftMainPageUrl (mainPageUrl : JsString) (jsonData : Manifest) : Manifest :=
  if truthy mainPageUrl then { jsonData with files := mainPageUrl :: jsonData.files }
  else jsonData

/-- The update check.  `manifestSettled` is how the fetch of `offline.js`
settles, `settled` how the fetches of the files do.  Errors are caught and
logged, so the check always completes. -/
def CheckForUpdate (scope : JsString) (mainPageUrl : JsString) (rand : Nat)
    (manifestSettled : FetchOutcome) (settled : List FetchOutcome) (w : World) : World :=
  let mainPageUrl := NormalizeMainPageUrl scope mainPageUrl
  let dw := FetchOfflineJs rand manifestSettled w
  match dw.1 with
  | Except.error _ => dw.2
  | Except.ok data =>
    let jsonData := unshiftMainPageUrl mainPageUrl data
    let cacheName := GetCacheVersionName scope (JsNum.num jsonData.version)
    let fw := cachesHas cacheName dw.2
    if fw.1 then fw.2
    else (CacheFileList scope jsonData false settled fw.2).2

/-- The rest of `CheckForUpdate`, run when the request for `offline.js` has
settled, with the main page URL as normalized at the start. -/
def CheckForUpdate_then (scope : JsString) (mainPageUrl : JsString)
    (manifestSettled : FetchOutcome) (settled : List FetchOutcome) (w : World) : World :=
  match manifestSettled with
  | FetchOutcome.rejected => w
  | FetchOutcome.resolved response =>
    if !response.ok then w
    else
      match response.json with
      | none => w
      | some data =>
        let jsonData := unshiftMainPageUrl mainPageUrl data
        let cacheName := GetCacheVersionName scope (JsNum.num jsonData.version)
        let fw := cachesHas cacheName w
        if fw.1 then fw.2
        else (CacheFileList scope jsonData false settled fw.2).2

/-- Assume the first client has the main page URL. -/
def GetMainPageUrl (clientsList : List JsString) : JsString :=
  match clientsList with
  | url :: _ => url
  | [] => []

/-- The `activate` listener, given the URLs of the claimed clients. -/
def onActivate (scope : JsString) (clientsList : List JsString) (rand : Nat)
    (manifestSettled : FetchOutcome) (settled : List FetchOutcome) (w : World) : World :=
  let mainPageUrl := NormalizeMainPageUrl scope (GetMainPageUrl clientsList)
  let dw := FetchOfflineJs rand manifestSettled w
  match dw.1 with
  | Except.error _ => dw.2
  | Except.ok data =>
    let jsonData := unshiftMainPageUrl mainPageUrl data
    (CacheFileList scope jsonData true settled dw.2).2

/-! ## Definitions used to state the properties -/

/-- A code unit is one of `0` to `9`. -/
def isDecimalDigit (c : Char) : Bool := decide (48 ≤ c.toNat ∧ c.toNat ≤ 57)

/-- The string `GetCacheBaseName() + "-v"` that both lookups filter by. -/
def baseNameV (scope : JsString) : JsString := GetCacheBaseName scope ++ "-v".toList

/-- A key passes the filter of the lookups. -/
def isRelevant (scope : JsString) (k : JsString) : Bool := indexOfIsZero k (baseNameV scope)

/-- The version the lookups read off a key. -/
def keyVersion (scope : JsString) (k : JsString) : JsNum :=
  parseInt (substr k (baseNameV scope).length)

/-- The integer of a finite number, `0` otherwise. -/
def JsNum.toInt : JsNum → Int
  | JsNum.num z => z
  | _ => 0

/-- An integer version that prints in plain notation: the value of a Number,
below `10 ^ 21` in magnitude. -/
def PlainVersion (z : Int) : Prop := isNumber z ∧ z.natAbs < 10 ^ 21

/-- Every key that passes the filter is the name of a plain integer version. -/
def Canonical (scope : JsString) (keyList : List JsString) : Prop :=
  ∀ k ∈ keyList, isRelevant scope k = true →
    ∃ z : Int, PlainVersion z ∧ k = GetCacheVersionName scope (JsNum.num z)

/-- The integer versions behind the relevant keys, in key order. -/
def keyInts (scope : JsString) (keyList : List JsString) : List Int :=
  (keyList.filter (isRelevant scope)).map (fun k => (keyVersion scope k).toInt)

/-- The world in which `FindNewestCacheAndDeleteOlder` opens the newest
cache: the keys were listed and all versions but the last were deleted. -/
def afterDeletes (scope : JsString) (w : World) : World :=
  { caches := w.caches.filter (fun e => decide (e.1 ∉
      (sortedVersionList scope (w.caches.map Prod.fst)).dropLast.map (GetCacheVersionName scope)))
    ops := w.ops ++ StoreOp.keys ::
      ((sortedVersionList scope (w.caches.map Prod.fst)).dropLast.map
        (GetCacheVersionName scope)).map StoreOp.deleteCache
    fetched := w.fetched }

/-- The names on which `caches.open` was called, oldest first. -/
def openedNames (ops : List StoreOp) : List JsString :=
  ops.filterMap (fun op => match op with
    | StoreOp.openCache name => some name
    | _ => none)

def exampleScope : JsString := "https://a.test/".toList

/-- A store holding an empty cache under each of the given names. -/
def storeOf (names : List String) : World :=
  { caches := names.map (fun n => (n.toList, [])), ops := [], fetched := [] }

/-- Versions 1, 3 and 2 of the deployment next to a foreign cache. -/
def store132 : World :=
  storeOf ["offline-https://a.test/-v1", "offline-https://a.test/-v3",
    "offline-https://a.test/-v2", "unrelated"]

/-- A key with a leading zero in its version next to version 2. -/
def storeLeadingZero : World :=
  storeOf ["offline-https://a.test/-v01", "offline-https://a.test/-v2"]

/-- The store the worker builds for version `10 ^ 21`: the name is the one
`GetCacheVersionName` gives. -/
def store1e21 : World := storeOf ["offline-https://a.test/-v1e+21"]

/-- The store the worker builds for the versions `10 ^ 21` and `5`. -/
def storeOwnKeys : World :=
  storeOf ["offline-https://a.test/-v1e+21", "offline-https://a.test/-v5"]

/-- A key whose remainder after `-v` has no digit. -/
def storeMalformed : World := storeOf ["offline-https://a.test/-vfoo"]

/-- The world after the fetches of `CacheFileList` went out. -/
def afterFetches (jsonData : Manifest) (isFirstLoad : Bool) (w : World) : World :=
  { w with
    fetched := w.fetched ++ jsonData.files.map
      (fileRequest (if isFirstLoad then CacheMode.default else CacheMode.reload)) }

/-- The cache `cache` of the store holds an entry for the URL `f`. -/
def hasEntry (w : World) (cache : Cache) (f : JsString) : Prop :=
  ∃ entries r, w.caches.lookup cache = some entries ∧ (f, r) ∈ entries

/-- An OK response coming from the given URL. -/
def okResponse (url : String) : Response :=
  { ok := true, url := url.toList, statusText := "OK".toList, json := none }

/-- The manifest `{version: 5, files: ["a.js", "b.js"]}`. -/
def manifest5 : Manifest := { version := 5, files := ["a.js".toList, "b.js".toList] }

/-- A response with status 500. -/
def failedResponse (url : String) : Response :=
  { ok := false, url := url.toList, statusText := "Internal Server Error".toList, json := none }

/-- The response to the manifest request carrying `manifest5`. -/
def manifest5Response : Response :=
  { ok := true, url := "offline.js".toList, statusText := "OK".toList, json := some manifest5 }

/-- A store that already holds the cache of version 5. -/
def storeV5 : World := storeOf ["offline-https://a.test/-v5"]

/-- A store whose version 3 cache holds the main page. -/
def storeHit : World :=
  { caches := [("offline-https://a.test/-v3".toList,
      [("https://a.test/index.html".toList, okResponse "https://a.test/index.html")])],
    ops := [], fetched := [] }

/-- A navigation to the main page; it carries no client id. -/
def navigateEvent : FetchEvent :=
  { request := { url := "https://a.test/index.html".toList, cache := CacheMode.default,
                 mode := RequestMode.navigate },
    clientId := none }

/-- The invariant of the binder: the keys of the map are distinct, and every
result returned for a usable client id is the entry the map holds for it. -/
def Pinned (b : Binder) : Prop :=
  (b.clientIdToCache.map Prod.fst).Nodup ∧
  ∀ clientId r, (clientId, r) ∈ b.returned → clientIdTruthy clientId = true →
    mapHas b.clientIdToCache clientId = true ∧ mapGet b.clientIdToCache clientId = r

/-- Three requests of one page load race: the first lookup to finish finds no
cache, the later ones would find version 3, and all three get `null`. -/
def raceEvents : List Event :=
  [Event.call (some "c1".toList), Event.call (some "c1".toList),
   Event.lookupResolved 1 none, Event.call (some "c1".toList),
   Event.lookupResolved 0 (some "offline-https://a.test/-v3".toList)]

/-! # Properties -/

set_option maxRecDepth 100000

/-! ## Printing and parsing integers -/

theorem digitChar_decimal : ∀ d, d < 10 →
    isDecimalDigit (Nat.digitChar d) = true ∧ digitValue (Nat.digitChar d) = some d := by
  decide

theorem toDigitsCore_decimal (fuel : Nat) : ∀ (n : Nat) (ds : List Char),
    (∀ c ∈ ds, isDecimalDigit c = true) →
    ∀ c ∈ Nat.toDigitsCore 10 fuel n ds, isDecimalDigit c = true := by
  induction fuel with
  | zero => intro n ds h; simpa [Nat.toDigitsCore] using h
  | succ fuel ih =>
    intro n ds h
    have hd := (digitChar_decimal (n % 10) (Nat.mod_lt _ (by decide))).1
    simp only [Nat.toDigitsCore]
    split
    · intro c hc
      rcases List.mem_cons.1 hc with rfl | hc
      · exact hd
      · exact h c hc
    · apply ih
      intro c hc
      rcases List.mem_cons.1 hc with rfl | hc
      · exact hd
      · exact h c hc

theorem toDigitsCore_value (fuel : Nat) : ∀ (n : Nat) (ds : List Char), n < fuel →
    (Nat.toDigitsCore 10 fuel n ds).foldl (fun acc c => acc * 10 + (digitValue c).getD 0) 0
      = ds.foldl (fun acc c => acc * 10 + (digitValue c).getD 0) n := by
  induction fuel with
  | zero => intro n ds h; omega
  | succ fuel ih =>
    intro n ds h
    have hd := (digitChar_decimal (n % 10) (Nat.mod_lt _ (by decide))).2
    simp only [Nat.toDigitsCore]
    split
    · rename_i h0
      have h1 : n % 10 = n := by omega
      rw [List.foldl_cons, hd]
      simp [h1]
    · rename_i h0
      rw [ih (n / 10) _ (by omega)]
      simp only [List.foldl_cons, hd, Option.getD_some]
      congr 1
      omega

theorem toDigits_ne_nil (n : Nat) : Nat.toDigits 10 n ≠ [] := by
  have h := Nat.toDigitsCore_lens_eq_aux  10 (n + 1) n [] [] rfl
  intro h0
  unfold Nat.toDigits at h0
  simp only [Nat.toDigitsCore] at h0
  split at h0
  · simp at h0
  · rename_i h1
    have := Nat.toDigitsCore_lens_eq 10 n (n / 10) (Nat.digitChar (n % 10)) []
    rw [h0] at this
    simp at this

theorem not_space_of_decimal {c : Char} (h : isDecimalDigit c = true) :
    isStrWhiteSpaceChar c = false := by
  simp only [isDecimalDigit, decide_eq_true_eq] at h
  simp only [isStrWhiteSpaceChar, Bool.or_eq_false_iff, Bool.and_eq_false_imp,
    decide_eq_false_iff_not, decide_eq_true_eq]
  omega

theorem radixDigit_of_decimal {c : Char} (h : isDecimalDigit c = true) :
    isRadixDigit 10 c = true := by
  simp only [isDecimalDigit, decide_eq_true_eq] at h
  simp only [isRadixDigit, digitValue, h, and_self, if_true, decide_eq_true_eq]
  omega

theorem stripHexMarker_decimal (ds : List Char) (hall : ∀ c ∈ ds, isDecimalDigit c = true) :
    stripHexMarker ds = (10, ds) := by
  unfold stripHexMarker
  split
  · rename_i c0 c1 rest
    have h1 := hall c1 (by simp)
    rw [if_neg]
    rintro ⟨-, rfl | rfl⟩ <;> revert h1 <;> decide
  · rfl

theorem takeWhile_decimal (ds : List Char) (hall : ∀ c ∈ ds, isDecimalDigit c = true) :
    ds.takeWhile (isRadixDigit 10) = ds := by
  rw [List.takeWhile_eq_self_iff]
  intro c hc
  exact radixDigit_of_decimal (hall c hc)

/-- What `parseInt` does after the sign: for a non-empty run of decimal
digits, the Number nearest to their value. -/
theorem parseInt_decimal (ds : List Char) (hne : ds ≠ [])
    (hall : ∀ c ∈ ds, isDecimalDigit c = true) :
    parseInt ds = toDouble (digitsToNat 10 ds) ∧
    parseInt ('-' :: ds) = toDouble (-(digitsToNat 10 ds : Int)) := by
  obtain ⟨c, rest, rfl⟩ := List.exists_cons_of_ne_nil hne
  have hc := hall c (by simp)
  have hsp := not_space_of_decimal hc
  have hminus : c ≠ '-' := by rintro rfl; revert hc; decide
  have hplus : c ≠ '+' := by rintro rfl; revert hc; decide
  have htw := takeWhile_decimal (c :: rest) hall
  have hhex := stripHexMarker_decimal (c :: rest) hall
  constructor
  · unfold parseInt
    simp only [List.dropWhile_cons, hsp, Bool.false_eq_true, if_false, List.head?_cons,
      Option.some.injEq, hminus, hplus, or_self, hhex, htw, List.isEmpty_cons, one_mul]
  · have hm : isStrWhiteSpaceChar '-' = false := by decide
    unfold parseInt
    simp only [List.dropWhile_cons, hm, Bool.false_eq_true, if_false, List.head?_cons,
      Option.some.injEq, or_true, if_true, List.tail_cons, hhex, htw, List.isEmpty_cons,
      neg_one_mul]

theorem digitsToNat_toDigits (n : Nat) : digitsToNat 10 (Nat.toDigits 10 n) = n := by
  unfold digitsToNat Nat.toDigits
  rw [toDigitsCore_value (n + 1) n [] (Nat.lt_succ_self n)]
  rfl

theorem toDigits_decimal (n : Nat) : ∀ c ∈ Nat.toDigits 10 n, isDecimalDigit c = true :=
  toDigitsCore_decimal (n + 1) n [] (by simp)

/-- Zeros appended to digits multiply the value by a power of ten. -/
theorem digitsToNat_append_zeros (ds : List Char) (j : Nat) :
    digitsToNat 10 (ds ++ List.replicate j '0') = digitsToNat 10 ds * 10 ^ j := by
  unfold digitsToNat
  rw [List.foldl_append]
  generalize List.foldl (fun acc c => acc * 10 + (digitValue c).getD 0) 0 ds = acc
  induction j generalizing acc with
  | zero => simp
  | succ j ih =>
    rw [List.replicate_succ, List.foldl_cons, ih]
    have h0 : (digitValue '0').getD 0 = 0 := by decide
    rw [h0, Nat.add_zero, pow_succ]
    ring

/-! ## Rounding to a Number -/

theorem bitLengthAux_pos (fuel m : Nat) (hm : 0 < m) (hf : m ≤ fuel) :
    0 < bitLengthAux fuel m := by
  cases fuel with
  | zero => omega
  | succ fuel =>
    simp only [bitLengthAux]
    rw [if_neg (by omega)]
    omega

/-- A positive number is at least the power of two below its bit length. -/
theorem pow_bitLengthAux_le (fuel : Nat) : ∀ m : Nat, 0 < m → m ≤ fuel →
    2 ^ (bitLengthAux fuel m - 1) ≤ m := by
  induction fuel with
  | zero => intro m hm hf; omega
  | succ fuel ih =>
    intro m hm hf
    simp only [bitLengthAux]
    rw [if_neg (by omega)]
    by_cases h2 : m / 2 = 0
    · have h1 : bitLengthAux fuel (m / 2) = 0 := by
        rw [h2]
        cases fuel <;> simp [bitLengthAux]
      rw [h1]
      simpa using hm
    · have hpos : 0 < m / 2 := Nat.pos_of_ne_zero h2
      have hle : m / 2 ≤ fuel := by omega
      have h3 := ih (m / 2) hpos hle
      have h4 := bitLengthAux_pos fuel (m / 2) hpos hle
      have h5 : bitLengthAux fuel (m / 2) + 1 - 1 = (bitLengthAux fuel (m / 2) - 1) + 1 := by
        omega
      rw [h5, pow_succ]
      omega

theorem roundNat_pos (m : Nat) (hm : 0 < m) : 0 < roundNat m := by
  unfold roundNat
  split
  · exact hm
  · rename_i hbig
    have hle : 2 ^ (bitLength m - 53) ≤ m := by
      have h1 := pow_bitLengthAux_le m m hm (Nat.le_refl m)
      have h2 : 2 ^ (bitLength m - 53) ≤ 2 ^ (bitLengthAux m m - 1) := by
        apply Nat.pow_le_pow_right (by decide)
        unfold bitLength
        omega
      exact Nat.le_trans h2 h1
    have hq : 0 < m / 2 ^ (bitLength m - 53) :=
      Nat.div_pos hle (Nat.pos_pow_of_pos _ (by decide))
    have hp : 0 < 2 ^ (bitLength m - 53) := Nat.pos_pow_of_pos _ (by decide)
    simp only
    split
    · exact Nat.mul_pos (by omega) hp
    · exact Nat.mul_pos hq hp

theorem roundNat_zero : roundNat 0 = 0 := by decide

/-- The sign of a rounded integer is the sign of the integer. -/
theorem isPositive_toDouble (z : Int) : isPositive (toDouble z) = decide (0 < z) := by
  unfold toDouble
  by_cases hz : 0 < z
  · have hpos : 0 < roundNat z.natAbs := roundNat_pos _ (by omega)
    have hneg : ¬ z < 0 := by omega
    simp only [hneg, decide_False, if_false]
    split
    · simp [isPositive, hz]
    · simp only [isPositive, hz, decide_True, decide_eq_true_eq]
      omega
  · by_cases h0 : z = 0
    · subst h0
      simp [roundNat_zero, isPositive, bitLength, bitLengthAux]
    · have hneg : z < 0 := by omega
      simp only [hneg, decide_True, if_true]
      split
      · simp [isPositive, hz]
      · simp only [isPositive, hz, decide_False, decide_eq_false_iff_not, not_lt]
        omega

/-- What it means for an integer to be the value of a Number. -/
theorem isNumber_iff (z : Int) :
    isNumber z ↔ (roundNat z.natAbs = z.natAbs ∧ ¬ 1024 < bitLength (roundNat z.natAbs)) := by
  unfold isNumber toDouble
  by_cases hb : 1024 < bitLength (roundNat z.natAbs)
  · simp only [hb, if_true, not_true_eq_false, and_false]
    constructor
    · intro h
      exact JsNum.noConfusion h
    · intro h
      exact absurd h id
  · simp only [hb, if_false, JsNum.num.injEq, not_false_eq_true, and_true]
    constructor
    · intro h
      split at h <;> omega
    · intro h
      split <;> omega

/-- An integer that rounds to the magnitude of the Number `b` and has its
sign becomes `b`. -/
theorem toDouble_eq_of_round (a b : Int) (hb : isNumber b)
    (hround : roundNat a.natAbs = b.natAbs) (hsign : a < 0 ↔ b < 0) :
    toDouble a = JsNum.num b := by
  obtain ⟨h1, h2⟩ := (isNumber_iff b).1 hb
  rw [h1] at h2
  unfold toDouble
  simp only [hround, h2, if_false, JsNum.num.injEq]
  by_cases hb0 : b < 0
  · simp only [hsign.2 hb0, if_true]
    omega
  · have : ¬ a < 0 := fun h => hb0 (hsign.1 h)
    simp only [this, if_false]
    omega

/-! ## The shortest decimal of a Number -/

theorem closest_mem (z : Nat) : ∀ (l : List (Nat × Nat)) (c : Nat × Nat),
    closest z l = some c → c ∈ l := by
  intro l
  induction l with
  | nil => intro c h; exact Option.noConfusion h
  | cons c0 cs ih =>
    intro c h
    simp only [closest] at h
    cases hrest : closest z cs with
    | none =>
      rw [hrest] at h
      cases Option.some.inj h
      exact List.mem_cons_self _ _
    | some c2 =>
      rw [hrest] at h
      have h2 := Option.some.inj h
      by_cases hc : closer z c0 c2 = true
      · rw [if_pos hc] at h2
        rw [← h2]
        exact List.mem_cons_self _ _
      · rw [if_neg hc] at h2
        rw [← h2]
        exact List.mem_cons_of_mem _ (ih c2 hrest)

theorem shortestFrom_spec (z : Nat) : ∀ ks : List Nat,
    shortestFrom z ks = (z, 0) ∨
    ∃ k ∈ ks, shortestFrom z ks ∈ (candidates z k).filter (isValid z k) := by
  intro ks
  induction ks with
  | nil => left; rfl
  | cons k ks ih =>
    simp only [shortestFrom]
    cases hc : closest z ((candidates z k).filter (isValid z k)) with
    | some c =>
      right
      exact ⟨k, List.mem_cons_self _ _, closest_mem z _ c hc⟩
    | none =>
      rcases ih with h | ⟨k2, hk2, h⟩
      · left; exact h
      · right; exact ⟨k2, List.mem_cons_of_mem _ hk2, h⟩

theorem digitCount_le (m e : Nat) (hlt : m < 10 ^ e) (he : 0 < e) : digitCount m ≤ e :=
  Nat.toDigitsCore_length 10 (by decide) (m + 1) m e hlt he

theorem roundNat_pow21 : roundNat (10 ^ 21) = 10 ^ 21 := by decide

/-- Below `10 ^ 21` the shortest decimal of a Number reads back as that
Number and has at most 21 digits, zeros included. -/
theorem shortest_spec (z : Nat) (hround : roundNat z = z) (hlt : z < 10 ^ 21) :
    roundNat ((shortest z).1 * 10 ^ (shortest z).2) = z ∧
    digitCount (shortest z).1 + (shortest z).2 ≤ 21 := by
  have hd : digitCount z ≤ 21 := digitCount_le z 21 hlt (by decide)
  unfold shortest
  rcases shortestFrom_spec z (List.range' 1 17) with h | ⟨k, hk, h⟩
  · rw [h]
    simp only [pow_zero, mul_one]
    exact ⟨hround, by omega⟩
  · obtain ⟨hk1, _⟩ := List.mem_range'_1.1 hk
    generalize shortestFrom z (List.range' 1 17) = c at h
    obtain ⟨hcand, hvalid⟩ := List.mem_filter.1 h
    simp only [isValid, decide_eq_true_eq] at hvalid
    obtain ⟨_, hupper, hback⟩ := hvalid
    refine ⟨hback, ?_⟩
    have hck : digitCount c.1 ≤ k := digitCount_le c.1 k hupper (by omega)
    simp only [candidates, List.mem_append] at hcand
    rcases hcand with (hcand | hcand) | hcand
    · split at hcand
      · rw [List.mem_singleton] at hcand
        subst hcand
        simp only at hck ⊢
        omega
      · exact absurd hcand (List.not_mem_nil _)
    · split at hcand
      · simp only [List.mem_cons, List.mem_singleton, List.not_mem_nil, or_false] at hcand
        rcases hcand with rfl | rfl
        · simp only at hck ⊢
          omega
        · simp only at hck ⊢
          omega
      · exact absurd hcand (List.not_mem_nil _)
    · split at hcand
      · rename_i hkd
        rw [List.mem_singleton] at hcand
        subst hcand
        simp only at hck hback ⊢
        by_cases hd20 : digitCount z ≤ 20
        · omega
        · have hd21 : digitCount z = 21 := by omega
          rw [hd21] at hback
          have hpow : 10 ^ (k - 1) * 10 ^ (21 + 1 - k) = 10 ^ 21 := by
            rw [← pow_add]
            congr 1
            omega
          rw [hpow, roundNat_pow21] at hback
          omega
      · exact absurd hcand (List.not_mem_nil _)

/-- Below `10 ^ 21` a Number prints as decimal digits that read back as the
same Number. -/
theorem natToString_spec (z : Nat) (hround : roundNat z = z) (hlt : z < 10 ^ 21) :
    natToString z ≠ [] ∧ (∀ c ∈ natToString z, isDecimalDigit c = true) ∧
    roundNat (digitsToNat 10 (natToString z)) = z := by
  obtain ⟨hback, hlen⟩ := shortest_spec z hround hlt
  have hplain : natToString z
      = Nat.toDigits 10 (shortest z).1 ++ List.replicate (shortest z).2 '0' := by
    unfold digitCount at hlen
    unfold natToString
    simp only
    rw [if_pos hlen]
  rw [hplain]
  refine ⟨?_, ?_, ?_⟩
  · intro h0
    exact toDigits_ne_nil _ (List.append_eq_nil.1 h0).1
  · intro c hc
    rcases List.mem_append.1 hc with hc | hc
    · exact toDigits_decimal _ c hc
    · rw [(List.mem_replicate.1 hc).2]
      decide
  · rw [digitsToNat_append_zeros, digitsToNat_toDigits]
    exact hback

/-- Printing a Number below `10 ^ 21` in magnitude and parsing it again
gives the Number back. -/
theorem parseInt_NumberToString (z : Int) (hnum : isNumber z) (hlt : z.natAbs < 10 ^ 21) :
    parseInt (NumberToString (JsNum.num z)) = JsNum.num z := by
  obtain ⟨hround, _⟩ := (isNumber_iff z).1 hnum
  obtain ⟨hne, hdec, hback⟩ := natToString_spec z.natAbs hround hlt
  simp only [NumberToString]
  split
  · rename_i hz
    rw [(parseInt_decimal _ hne hdec).2]
    apply toDouble_eq_of_round _ _ hnum
    · rw [Int.natAbs_neg, Int.natAbs_ofNat]
      exact hback
    · constructor
      · intro _; exact hz
      · intro _
        have hpos : 0 < digitsToNat 10 (natToString z.natAbs) := by
          by_contra h0
          have h1 : digitsToNat 10 (natToString z.natAbs) = 0 := by omega
          rw [h1, roundNat_zero] at hback
          omega
        omega
  · rename_i hz
    rw [(parseInt_decimal _ hne hdec).1]
    apply toDouble_eq_of_round _ _ hnum
    · rw [Int.natAbs_ofNat]
      exact hback
    · constructor
      · intro h; omega
      · intro h; exact absurd h hz

theorem NumberToString_injective (a b : Int)
    (ha : isNumber a) (hb : isNumber b) (hla : a.natAbs < 10 ^ 21) (hlb : b.natAbs < 10 ^ 21)
    (h : NumberToString (JsNum.num a) = NumberToString (JsNum.num b)) : a = b := by
  have := congrArg parseInt h
  rw [parseInt_NumberToString a ha hla, parseInt_NumberToString b hb hlb] at this
  exact JsNum.num.inj this

/-! ## Sorting versions -/

theorem orderedInsert_map_num (a : Int) (l : List Int) :
    List.orderedInsert (fun a b => isPositive (SortAscending a b) = false) (JsNum.num a)
        (l.map JsNum.num)
      = (List.orderedInsert (fun a b : Int => a ≤ b) a l).map JsNum.num := by
  induction l with
  | nil => rfl
  | cons b l ih =>
    simp only [List.map_cons, List.orderedInsert, SortAscending, isPositive_toDouble,
      decide_eq_false_iff_not, sub_pos, not_lt]
    by_cases h : a ≤ b
    · simp [h]
    · simp only [h, if_false, List.map_cons]
      rw [← ih]
      simp only [SortAscending, isPositive_toDouble, decide_eq_false_iff_not, sub_pos, not_lt]

/-- On integers the worker's sort is the sort by `≤`. -/
theorem arraySort_map_num (l : List Int) :
    arraySort SortAscending (l.map JsNum.num)
      = (l.insertionSort (fun a b : Int => a ≤ b)).map JsNum.num := by
  induction l with
  | nil => rfl
  | cons a l ih =>
    unfold arraySort at ih ⊢
    simp only [List.map_cons, List.insertionSort]
    rw [ih, orderedInsert_map_num]

theorem arraySort_length (l : List JsNum) : (arraySort SortAscending l).length = l.length := by
  unfold arraySort
  exact List.length_insertionSort _ l

theorem arraySort_perm (l : List JsNum) : (arraySort SortAscending l).Perm l := by
  unfold arraySort
  exact List.perm_insertionSort _ l

/-- In a list sorted by `≤` the last element is an upper bound. -/
theorem sorted_le_getLast (l : List Int) (hs : l.Sorted (fun a b : Int => a ≤ b)) :
    ∀ m, l.getLast? = some m → ∀ z ∈ l, z ≤ m := by
  induction l with
  | nil => intro m h; simp at h
  | cons a l ih =>
    intro m hm z hz
    have hs2 := List.sorted_cons.1 hs
    cases l with
    | nil =>
      simp at hm hz
      omega
    | cons b l =>
      rw [List.getLast?_cons_cons] at hm
      have hmem : m ∈ b :: l := List.mem_of_getLast?_eq_some hm
      rcases List.mem_cons.1 hz with rfl | hz
      · exact hs2.1 m hmem
      · exact ih hs2.2 m hm z hz

/-! ## Keys and versions -/

theorem sortedVersionList_eq (scope : JsString) (keyList : List JsString) :
    sortedVersionList scope keyList
      = arraySort SortAscending ((keyList.filter (isRelevant scope)).map (keyVersion scope)) :=
  rfl

theorem versionName_eq (scope : JsString) (v : JsNum) :
    GetCacheVersionName scope v = baseNameV scope ++ NumberToString v := rfl

theorem isRelevant_versionName (scope : JsString) (v : JsNum) :
    isRelevant scope (GetCacheVersionName scope v) = true := by
  simp [isRelevant, indexOfIsZero, versionName_eq]

theorem keyVersion_versionName (scope : JsString) (z : Int) (hz : PlainVersion z) :
    keyVersion scope (GetCacheVersionName scope (JsNum.num z)) = JsNum.num z := by
  simp [keyVersion, substr, versionName_eq, parseInt_NumberToString z hz.1 hz.2]

theorem versionName_injective (scope : JsString) (a b : Int)
    (ha : PlainVersion a) (hb : PlainVersion b)
    (h : GetCacheVersionName scope (JsNum.num a) = GetCacheVersionName scope (JsNum.num b)) :
    a = b := by
  rw [versionName_eq, versionName_eq] at h
  exact NumberToString_injective a b ha.1 hb.1 ha.2 hb.2 (List.append_cancel_left h)

theorem startsWithBase_of_isRelevant (scope : JsString) (k : JsString)
    (h : isRelevant scope k = true) : indexOfIsZero k (GetCacheBaseName scope) = true := by
  simp only [isRelevant, indexOfIsZero, baseNameV, List.isPrefixOf_iff_prefix] at h ⊢
  exact (List.prefix_append _ _).trans h

theorem canonical_filter (scope : JsString) (keyList : List JsString)
    (hc : Canonical scope keyList) :
    keyList.filter (isRelevant scope)
      = (keyInts scope keyList).map (fun z => GetCacheVersionName scope (JsNum.num z)) := by
  unfold keyInts
  rw [List.map_map]
  conv_lhs => rw [← List.map_id (keyList.filter (isRelevant scope))]
  apply List.map_congr_left
  intro k hk
  obtain ⟨hk1, hk2⟩ := List.mem_filter.1 hk
  obtain ⟨z, hz, rfl⟩ := hc k hk1 hk2
  simp [keyVersion_versionName scope z hz, JsNum.toInt]

theorem canonical_versions (scope : JsString) (keyList : List JsString)
    (hc : Canonical scope keyList) :
    sortedVersionList scope keyList
      = ((keyInts scope keyList).insertionSort (fun a b : Int => a ≤ b)).map JsNum.num := by
  rw [sortedVersionList_eq, ← arraySort_map_num]
  congr 1
  unfold keyInts
  rw [List.map_map]
  apply List.map_congr_left
  intro k hk
  obtain ⟨hk1, hk2⟩ := List.mem_filter.1 hk
  obtain ⟨z, hz, rfl⟩ := hc k hk1 hk2
  simp [keyVersion_versionName scope z hz, JsNum.toInt]

/-- The integers read off canonical keys are plain versions whose names are
keys. -/
theorem keyInts_sound (scope : JsString) (keyList : List JsString)
    (hc : Canonical scope keyList) (z : Int) (hz : z ∈ keyInts scope keyList) :
    PlainVersion z ∧ GetCacheVersionName scope (JsNum.num z) ∈ keyList := by
  unfold keyInts at hz
  obtain ⟨k, hk, hkz⟩ := List.mem_map.1 hz
  obtain ⟨hk1, hk2⟩ := List.mem_filter.1 hk
  obtain ⟨y, hy, rfl⟩ := hc k hk1 hk2
  rw [keyVersion_versionName scope y hy] at hkz
  simp only [JsNum.toInt] at hkz
  subst hkz
  exact ⟨hy, hk1⟩

/-- Every plain version whose name is a key is among the integers read. -/
theorem keyInts_complete (scope : JsString) (keyList : List JsString) (z : Int)
    (hz : PlainVersion z) (hmem : GetCacheVersionName scope (JsNum.num z) ∈ keyList) :
    z ∈ keyInts scope keyList := by
  unfold keyInts
  refine List.mem_map.2 ⟨_, List.mem_filter.2 ⟨hmem, isRelevant_versionName scope _⟩, ?_⟩
  rw [keyVersion_versionName scope z hz]
  rfl

/-! ## What the lookups do to the world -/

theorem foldl_cachesDelete (names : List JsString) : ∀ w : World,
    names.foldl (fun w cacheName => cachesDelete cacheName w) w
      = { caches := w.caches.filter (fun e => decide (e.1 ∉ names))
          ops := w.ops ++ names.map StoreOp.deleteCache
          fetched := w.fetched } := by
  induction names with
  | nil => intro w; simp
  | cons n names ih =>
    intro w
    rw [List.foldl_cons, ih]
    simp only [cachesDelete, List.filter_filter, List.map_cons, List.append_assoc,
      List.singleton_append, World.mk.injEq, and_true]
    apply List.filter_congr
    intro e _
    simp only [List.mem_cons, not_or, ne_eq, Bool.decide_and, Bool.and_comm]

theorem FindNewestCacheAndDeleteOlder_eq (scope : JsString) (w : World) :
    FindNewestCacheAndDeleteOlder scope w
      = match (sortedVersionList scope (w.caches.map Prod.fst)).getLast? with
        | none => (none, afterDeletes scope w)
        | some newest =>
          (some (GetCacheVersionName scope newest),
           (cachesOpen (GetCacheVersionName scope newest) (afterDeletes scope w)).2) := by
  unfold FindNewestCacheAndDeleteOlder
  simp only [foldl_cachesDelete, cachesKeys, afterDeletes, List.append_assoc,
    List.singleton_append]
  split <;> rfl

theorem FindNewestCache_eq (scope : JsString) (w : World) :
    FindNewestCache scope w
      = match (sortedVersionList scope (w.caches.map Prod.fst)).getLast? with
        | none => (none, { w with ops := w.ops ++ [StoreOp.keys] })
        | some newest =>
          (some (GetCacheVersionName scope newest),
           (cachesOpen (GetCacheVersionName scope newest)
              { w with ops := w.ops ++ [StoreOp.keys] }).2) := by
  unfold FindNewestCache
  simp only [cachesKeys]
  split <;> rfl

theorem mem_cachesOpen (name : JsString) (w : World) (e : JsString × CacheEntries)
    (he : e ∈ w.caches) : e ∈ (cachesOpen name w).2.caches := by
  simp only [cachesOpen]
  split
  · exact he
  · exact List.mem_append_left _ he

theorem filter_isRelevant_of_base (scope : JsString) (keyList : List JsString) :
    (keyList.filter (fun k => indexOfIsZero k (GetCacheBaseName scope))).filter (isRelevant scope)
      = keyList.filter (isRelevant scope) := by
  rw [List.filter_filter]
  apply List.filter_congr
  intro k _
  by_cases h : isRelevant scope k = true
  · simp [h, startsWithBase_of_isRelevant scope k h]
  · simp [h]

/-! ## Deployment partition -/

/-- C9. Every name that `FindNewestCacheAndDeleteOlder` deletes begins with
`GetCacheBaseName() + "-v"`; a store entity whose name does not begin with the
base name survives the prune untouched; and the cache selected is the same as
on the store restricted to the entities that begin with the base name. -/
theorem prune_respects_deployment (scope : JsString) (w : World) :
    (∃ performed : List StoreOp,
      (FindNewestCacheAndDeleteOlder scope w).2.ops = w.ops ++ performed ∧
      ∀ name, StoreOp.deleteCache name ∈ performed →
        indexOfIsZero name (GetCacheBaseName scope ++ "-v".toList) = true) ∧
    (∀ e ∈ w.caches, indexOfIsZero e.1 (GetCacheBaseName scope) = false →
      e ∈ (FindNewestCacheAndDeleteOlder scope w).2.caches) ∧
    (FindNewestCacheAndDeleteOlder scope w).1
      = (FindNewestCacheAndDeleteOlder scope
          { w with
            caches := w.caches.filter (fun e => indexOfIsZero e.1 (GetCacheBaseName scope)) }).1
      := by
  have hkept : ∀ e ∈ w.caches, indexOfIsZero e.1 (GetCacheBaseName scope) = false →
      e ∈ (afterDeletes scope w).caches := by
    intro e he hbase
    simp only [afterDeletes, List.mem_filter, decide_eq_true_eq, List.mem_map, not_exists,
      not_and]
    refine ⟨he, ?_⟩
    intro v _ hv
    have := startsWithBase_of_isRelevant scope _ (isRelevant_versionName scope v)
    rw [hv, hbase] at this
    exact Bool.noConfusion this
  have hdel : ∀ name, StoreOp.deleteCache name ∈ StoreOp.keys ::
      ((sortedVersionList scope (w.caches.map Prod.fst)).dropLast.map
        (GetCacheVersionName scope)).map StoreOp.deleteCache →
      indexOfIsZero name (GetCacheBaseName scope ++ "-v".toList) = true := by
    intro name hname
    simp only [List.mem_cons, List.mem_map, false_or] at hname
    rcases hname with h | ⟨a, ⟨v, _, rfl⟩, ha⟩
    · exact StoreOp.noConfusion h
    · cases ha
      exact isRelevant_versionName scope v
  have hsel : sortedVersionList scope
      ((w.caches.filter (fun e => indexOfIsZero e.1 (GetCacheBaseName scope))).map Prod.fst)
      = sortedVersionList scope (w.caches.map Prod.fst) := by
    rw [sortedVersionList_eq, sortedVersionList_eq]
    have : (w.caches.filter (fun e => indexOfIsZero e.1 (GetCacheBaseName scope))).map Prod.fst
        = (w.caches.map Prod.fst).filter (fun k => indexOfIsZero k (GetCacheBaseName scope)) := by
      induction w.caches with
      | nil => rfl
      | cons e l ih =>
        simp only [List.filter_cons, List.map_cons]
        split <;> simp [ih]
    rw [this, filter_isRelevant_of_base]
  refine ⟨?_, ?_, ?_⟩
  · rw [FindNewestCacheAndDeleteOlder_eq]
    split
    · exact ⟨_, rfl, hdel⟩
    · rename_i newest _
      refine ⟨StoreOp.keys :: ((sortedVersionList scope (w.caches.map Prod.fst)).dropLast.map
        (GetCacheVersionName scope)).map StoreOp.deleteCache
          ++ [StoreOp.openCache (GetCacheVersionName scope newest)], ?_, ?_⟩
      · simp only [cachesOpen, afterDeletes, List.append_assoc, List.cons_append]
      · intro name hname
        rcases List.mem_append.1 hname with h | h
        · exact hdel name h
        · simp at h
  · intro e he hbase
    rw [FindNewestCacheAndDeleteOlder_eq]
    split
    · exact hkept e he hbase
    · exact mem_cachesOpen _ _ e (hkept e he hbase)
  · rw [FindNewestCacheAndDeleteOlder_eq, FindNewestCacheAndDeleteOlder_eq]
    simp only [hsel]
    split <;> rfl

/-! ## Newest-wins selection -/

theorem openedNames_append (a b : List StoreOp) :
    openedNames (a ++ b) = openedNames a ++ openedNames b := by
  simp [openedNames, List.filterMap_append]

theorem openedNames_deletes (names : List JsString) :
    openedNames (names.map StoreOp.deleteCache) = [] := by
  induction names with
  | nil => rfl
  | cons n names ih =>
    simp only [List.map_cons, openedNames, List.filterMap_cons] at ih ⊢
    exact ih

theorem cachesOpen_ops (name : JsString) (w : World) :
    (cachesOpen name w).2.ops = w.ops ++ [StoreOp.openCache name] := rfl

theorem openedNames_FindNewestCache (scope : JsString) (w : World) :
    openedNames (FindNewestCache scope w).2.ops
      = openedNames w.ops ++ (FindNewestCache scope w).1.toList := by
  rw [FindNewestCache_eq]
  split
  · simp [openedNames_append, openedNames]
  · simp only [cachesOpen_ops, openedNames_append]
    simp [openedNames]

theorem openedNames_FindNewestCacheAndDeleteOlder (scope : JsString) (w : World) :
    openedNames (FindNewestCacheAndDeleteOlder scope w).2.ops
      = openedNames w.ops ++ (FindNewestCacheAndDeleteOlder scope w).1.toList := by
  have h : ∀ names : List JsString,
      openedNames (StoreOp.keys :: names.map StoreOp.deleteCache) = [] := by
    intro names
    have := openedNames_deletes names
    simp only [openedNames, List.filterMap_cons] at this ⊢
    exact this
  rw [FindNewestCacheAndDeleteOlder_eq]
  split
  · simp only [afterDeletes, openedNames_append, h, Option.toList, List.append_nil]
  · simp only [cachesOpen_ops, afterDeletes, openedNames_append, h, Option.toList,
      List.append_nil]
    rfl

/-- Both lookups select through the last element of the same version list. -/
theorem selected_eq (scope : JsString) (w : World) :
    (FindNewestCache scope w).1
        = (sortedVersionList scope (w.caches.map Prod.fst)).getLast?.map
            (GetCacheVersionName scope) ∧
    (FindNewestCacheAndDeleteOlder scope w).1
        = (sortedVersionList scope (w.caches.map Prod.fst)).getLast?.map
            (GetCacheVersionName scope) := by
  rw [FindNewestCache_eq, FindNewestCacheAndDeleteOlder_eq]
  constructor <;> split <;> simp [*]

/-- The last element of the sorted integers is their greatest element. -/
theorem getLast_insertionSort (L : List Int) :
    (L = [] → (L.insertionSort (fun a b : Int => a ≤ b)).getLast? = none) ∧
    (L ≠ [] → ∃ m, (L.insertionSort (fun a b : Int => a ≤ b)).getLast? = some m ∧
      m ∈ L ∧ ∀ z ∈ L, z ≤ m) := by
  constructor
  · rintro rfl; rfl
  · intro hne
    have hperm := List.perm_insertionSort (fun a b : Int => a ≤ b) L
    have hsorted := List.sorted_insertionSort (fun a b : Int => a ≤ b) L
    have hne2 : L.insertionSort (fun a b : Int => a ≤ b) ≠ [] := by
      intro h0
      rw [h0] at hperm
      exact hne hperm.symm.eq_nil
    refine ⟨(L.insertionSort (fun a b : Int => a ≤ b)).getLast hne2,
      List.getLast?_eq_getLast _ hne2, ?_, ?_⟩
    · exact hperm.subset (List.getLast_mem hne2)
    · intro z hz
      exact sorted_le_getLast _ hsorted _ (List.getLast?_eq_getLast _ hne2) z
        (hperm.symm.subset hz)

/-- C3, amended. Let `vs` be a finite set of integer versions, each the value
of a Number and below `10 ^ 21` in magnitude, and let the keys of the store be
the names of the versions in `vs`, in any order, mixed with keys that do not
start with `GetCacheBaseName() + "-v"` (which covers every key that does not
start with the base name). Then `FindNewestCache` and
`FindNewestCacheAndDeleteOlder` both open exactly the cache named after the
greatest version of `vs`, and both return `null` when `vs` is empty, that is
when no key starts with the base name and `-v`. -/
theorem newest_wins (scope : JsString) (vs : Finset Int) (w : World)
    (hplain : ∀ v ∈ vs, isNumber v ∧ v.natAbs < 10 ^ 21)
    (hall : ∀ v ∈ vs, GetCacheVersionName scope (JsNum.num v) ∈ w.caches.map Prod.fst)
    (honly : ∀ k ∈ w.caches.map Prod.fst,
      (∃ v ∈ vs, k = GetCacheVersionName scope (JsNum.num v)) ∨
      indexOfIsZero k (GetCacheBaseName scope ++ "-v".toList) = false) :
    (FindNewestCache scope w).1
        = (if h : vs.Nonempty then some (GetCacheVersionName scope (JsNum.num (vs.max' h)))
           else none) ∧
    (FindNewestCacheAndDeleteOlder scope w).1 = (FindNewestCache scope w).1 ∧
    openedNames (FindNewestCache scope w).2.ops
        = openedNames w.ops ++ (FindNewestCache scope w).1.toList ∧
    openedNames (FindNewestCacheAndDeleteOlder scope w).2.ops
        = openedNames w.ops ++ (FindNewestCache scope w).1.toList := by
  have hsel := selected_eq scope w
  have hc : Canonical scope (w.caches.map Prod.fst) := by
    intro k hk hrel
    rcases honly k hk with ⟨v, hvs, hv⟩ | h
    · exact ⟨v, hplain v hvs, hv⟩
    · rw [isRelevant, baseNameV, h] at hrel
      exact Bool.noConfusion hrel
  have hmem : ∀ z, z ∈ keyInts scope (w.caches.map Prod.fst) ↔ z ∈ vs := by
    intro z
    constructor
    · intro hz
      obtain ⟨hzp, hzk⟩ := keyInts_sound scope _ hc z hz
      rcases honly _ hzk with ⟨v, hv, hzv⟩ | h
      · rw [versionName_injective scope z v hzp (hplain v hv) hzv]
        exact hv
      · have := isRelevant_versionName scope (JsNum.num z)
        rw [isRelevant, baseNameV, h] at this
        exact Bool.noConfusion this
    · intro hz
      exact keyInts_complete scope _ z (hplain z hz) (hall z hz)
  have hlast := getLast_insertionSort (keyInts scope (w.caches.map Prod.fst))
  have hfirst : (FindNewestCache scope w).1
      = (if h : vs.Nonempty then some (GetCacheVersionName scope (JsNum.num (vs.max' h)))
         else none) := by
    rw [hsel.1, canonical_versions scope _ hc, List.getLast?_map]
    by_cases hne : vs.Nonempty
    · obtain ⟨v0, hv0⟩ := hne
      have hL : keyInts scope (w.caches.map Prod.fst) ≠ [] :=
        List.ne_nil_of_mem ((hmem v0).2 hv0)
      obtain ⟨m, hm, hmL, hmax⟩ := hlast.2 hL
      have hmv : vs.max' ⟨v0, hv0⟩ = m :=
        le_antisymm (Finset.max'_le vs _ m (fun y hy => hmax y ((hmem y).2 hy)))
          (Finset.le_max' vs m ((hmem m).1 hmL))
      rw [hm, dif_pos ⟨v0, hv0⟩, hmv]
      rfl
    · have hL : keyInts scope (w.caches.map Prod.fst) = [] := by
        apply List.eq_nil_iff_forall_not_mem.2
        intro z hz
        exact hne ⟨z, (hmem z).1 hz⟩
      rw [hlast.1 hL, dif_neg hne]
      rfl
  refine ⟨hfirst, ?_, openedNames_FindNewestCache scope w, ?_⟩
  · rw [hsel.1, hsel.2]
  · rw [openedNames_FindNewestCacheAndDeleteOlder, hsel.1, hsel.2]

/-! ## Concrete stores -/

theorem newest_wins_witness :
    ((FindNewestCache exampleScope store132).1 = some "offline-https://a.test/-v3".toList ∧
      (FindNewestCacheAndDeleteOlder exampleScope store132).1
        = some "offline-https://a.test/-v3".toList ∧
      (FindNewestCacheAndDeleteOlder exampleScope store132).2.caches.map Prod.fst
        = ["offline-https://a.test/-v3".toList, "unrelated".toList]) ∧
    (FindNewestCache exampleScope store132).1
        = (if h : ({1, 3, 2} : Finset Int).Nonempty then
            some (GetCacheVersionName exampleScope (JsNum.num (({1, 3, 2} : Finset Int).max' h)))
           else none) ∧
    (FindNewestCacheAndDeleteOlder exampleScope store132).1
        = (FindNewestCache exampleScope store132).1 ∧
    openedNames (FindNewestCache exampleScope store132).2.ops
        = openedNames store132.ops ++ (FindNewestCache exampleScope store132).1.toList ∧
    openedNames (FindNewestCacheAndDeleteOlder exampleScope store132).2.ops
        = openedNames store132.ops ++ (FindNewestCache exampleScope store132).1.toList :=
  ⟨by decide,
   newest_wins exampleScope {1, 3, 2} store132 (by
    intro v hv
    simp only [Finset.mem_insert, Finset.mem_singleton] at hv
    rcases hv with rfl | rfl | rfl <;> exact ⟨by unfold isNumber; decide, by decide⟩)
    (by decide) (by
    intro k hk
    simp only [store132, storeOf, List.map_cons, List.map_nil, List.mem_cons,
      List.mem_singleton, List.not_mem_nil, or_false] at hk
    rcases hk with rfl | rfl | rfl | rfl
    · exact Or.inl ⟨1, by decide, by decide⟩
    · exact Or.inl ⟨3, by decide, by decide⟩
    · exact Or.inl ⟨2, by decide, by decide⟩
    · exact Or.inr (by decide))⟩

/-- C3, as stated, fails: version `10 ^ 21` is the value of a Number and
prints as `1e+21`, so its cache is named `…-v1e+21`; `parseInt` reads `1` from
the key, and with that key alone both lookups open (and so create) the cache
`…-v1` instead of the cache of the greatest version. -/
theorem newest_misses_1e21 :
    isNumber (10 ^ 21) ∧
    GetCacheVersionName exampleScope (JsNum.num (10 ^ 21))
      = "offline-https://a.test/-v1e+21".toList ∧
    store1e21.caches.map Prod.fst = [GetCacheVersionName exampleScope (JsNum.num (10 ^ 21))] ∧
    parseInt "1e+21".toList = JsNum.num 1 ∧
    (FindNewestCache exampleScope store1e21).1 = some "offline-https://a.test/-v1".toList ∧
    (FindNewestCacheAndDeleteOlder exampleScope store1e21).1
      = some "offline-https://a.test/-v1".toList ∧
    (FindNewestCache exampleScope store1e21).1
      ≠ some (GetCacheVersionName exampleScope (JsNum.num (10 ^ 21))) ∧
    (FindNewestCache exampleScope store1e21).2.caches.map Prod.fst
      = ["offline-https://a.test/-v1e+21".toList, "offline-https://a.test/-v1".toList] := by
  refine ⟨by unfold isNumber; decide, by decide, by decide, by decide, by decide, by decide,
    by decide, by decide⟩

/-- C4. The prune does not reach its postcondition. With the keys `…-v01`
and `…-v2` it reads the versions 1 and 2, deletes the absent name `…-v1`, and
both entities remain. With the worker's own keys for the versions `10 ^ 21`
and `5`, `…-v1e+21` and `…-v5`, it reads 1 and 5, deletes the absent name
`…-v1`, returns `…-v5`, and both entities remain. -/
theorem prune_leaves_two_matching :
    ((FindNewestCacheAndDeleteOlder exampleScope storeLeadingZero).1
      = some "offline-https://a.test/-v2".toList ∧
    ((FindNewestCacheAndDeleteOlder exampleScope storeLeadingZero).2.caches.map Prod.fst).filter
        (fun k => indexOfIsZero k (GetCacheBaseName exampleScope))
      = ["offline-https://a.test/-v01".toList, "offline-https://a.test/-v2".toList] ∧
    ¬ ∃ k, ((FindNewestCacheAndDeleteOlder exampleScope storeLeadingZero).2.caches.map
        Prod.fst).filter (fun k => indexOfIsZero k (GetCacheBaseName exampleScope)) = [k]) ∧
    (storeOwnKeys.caches.map Prod.fst
      = [GetCacheVersionName exampleScope (JsNum.num (10 ^ 21)),
         GetCacheVersionName exampleScope (JsNum.num 5)] ∧
    (FindNewestCacheAndDeleteOlder exampleScope storeOwnKeys).1
      = some "offline-https://a.test/-v5".toList ∧
    (FindNewestCacheAndDeleteOlder exampleScope storeOwnKeys).2.ops
      = [StoreOp.keys, StoreOp.deleteCache "offline-https://a.test/-v1".toList,
         StoreOp.openCache "offline-https://a.test/-v5".toList] ∧
    (FindNewestCacheAndDeleteOlder exampleScope storeOwnKeys).2.caches.map Prod.fst
      = ["offline-https://a.test/-v1e+21".toList, "offline-https://a.test/-v5".toList]) := by
  have h : ((FindNewestCacheAndDeleteOlder exampleScope storeLeadingZero).2.caches.map
        Prod.fst).filter (fun k => indexOfIsZero k (GetCacheBaseName exampleScope))
      = ["offline-https://a.test/-v01".toList, "offline-https://a.test/-v2".toList] := by
    decide
  refine ⟨⟨by decide, h, ?_⟩, by decide, by decide, by decide, by decide⟩
  rintro ⟨k, hk⟩
  rw [h] at hk
  exact absurd (congrArg List.length hk) (by simp)

/-! ## Malformed names -/

/-- C5, amended. `FindNewestCache` never fails, but a key that starts with the
base name and `-v` is never left out: the lookup returns `null` exactly when
no key starts with that string, and when a single key does, it opens the cache
named after whatever `parseInt` reads from the remainder (`NaN` when there is
no digit to read). -/
theorem lookup_keeps_malformed (scope : JsString) (w : World) :
    ((FindNewestCache scope w).1 = none ↔
      ∀ k ∈ w.caches.map Prod.fst,
        indexOfIsZero k (GetCacheBaseName scope ++ "-v".toList) = false) ∧
    (∀ k, (w.caches.map Prod.fst).filter
          (fun k => indexOfIsZero k (GetCacheBaseName scope ++ "-v".toList)) = [k] →
      (FindNewestCache scope w).1
        = some (GetCacheVersionName scope
            (parseInt (substr k (GetCacheBaseName scope ++ "-v".toList).length)))) := by
  have hsel := (selected_eq scope w).1
  constructor
  · rw [hsel, Option.map_eq_none', List.getLast?_eq_none_iff, ← List.length_eq_zero,
      sortedVersionList_eq, arraySort_length]
    simp only [List.length_map, List.length_eq_zero, List.filter_eq_nil_iff,
      Bool.not_eq_true, isRelevant, baseNameV]
  · intro k hk
    rw [hsel]
    have : sortedVersionList scope (w.caches.map Prod.fst)
        = [parseInt (substr k (GetCacheBaseName scope ++ "-v".toList).length)] := by
      simp only [sortedVersionList, hk]
      rfl
    rw [this]
    rfl

theorem lookup_keeps_malformed_witness :
    (FindNewestCache exampleScope storeMalformed).1
      = some (GetCacheVersionName exampleScope
          (parseInt (substr "offline-https://a.test/-vfoo".toList
            (GetCacheBaseName exampleScope ++ "-v".toList).length))) :=
  (lookup_keeps_malformed exampleScope storeMalformed).2 _ (by decide)

/-- C5, as stated, fails: a store whose only matching key is `…-vfoo` does not
yield `null`; `parseInt` gives `NaN` and the cache `…-vNaN` is created and
returned, while the same store without that key yields `null`. -/
theorem malformed_key_opens_NaN :
    parseInt "foo".toList = JsNum.nan ∧
    (FindNewestCache exampleScope storeMalformed).1
      = some "offline-https://a.test/-vNaN".toList ∧
    (FindNewestCache exampleScope storeMalformed).2.caches.map Prod.fst
      = ["offline-https://a.test/-vfoo".toList, "offline-https://a.test/-vNaN".toList] ∧
    (FindNewestCache exampleScope (storeOf [])).1 = none := by
  decide

/-! ## Building a cache -/

theorem foldl_fetch (requests : List Request) : ∀ w : World,
    requests.foldl (fun w request => fetch request w) w
      = { w with fetched := w.fetched ++ requests } := by
  induction requests with
  | nil => intro w; simp
  | cons r requests ih =>
    intro w
    rw [List.foldl_cons, ih]
    simp [fetch]

theorem PromiseAll_ok (settled : List FetchOutcome) : ∀ responses : List Response,
    PromiseAll settled = Except.ok responses ↔ settled = responses.map FetchOutcome.resolved := by
  induction settled with
  | nil =>
    intro responses
    cases responses <;> simp [PromiseAll]
  | cons o settled ih =>
    intro responses
    cases o with
    | rejected =>
      cases responses <;> simp [PromiseAll]
    | resolved r =>
      simp only [PromiseAll]
      cases hrest : PromiseAll settled with
      | error e =>
        constructor
        · intro h
          exact Except.noConfusion h
        · intro h
          cases responses with
          | nil => exact List.noConfusion h
          | cons r2 rs =>
            have h2 := (ih rs).2 (List.cons.inj h).2
            rw [hrest] at h2
            exact Except.noConfusion h2
      | ok rs0 =>
        have h0 := (ih rs0).1 hrest
        constructor
        · intro h
          cases Except.ok.inj h
          rw [h0]
          rfl
        · intro h
          cases responses with
          | nil => exact List.noConfusion h
          | cons r2 rs =>
            have h1 := List.cons.inj h
            have h2 := (ih rs).2 h1.2
            rw [hrest] at h2
            cases Except.ok.inj h2
            cases h1.1
            rfl

theorem CacheFileList_eq (scope : JsString) (jsonData : Manifest) (isFirstLoad : Bool)
    (settled : List FetchOutcome) (w : World) :
    CacheFileList scope jsonData isFirstLoad settled w
      = match PromiseAll settled with
        | Except.error e => (Except.error e, afterFetches jsonData isFirstLoad w)
        | Except.ok responseList =>
          if responseList.length ≠ jsonData.files.length then
            (Except.error SwError.wrongNumberOfResponses, afterFetches jsonData isFirstLoad w)
          else
            match responseList.find? (fun r => !r.ok) with
            | some r => (Except.error (SwError.failedToFetch r.url r.statusText),
                afterFetches jsonData isFirstLoad w)
            | none =>
              (Except.ok (), (List.zip jsonData.files responseList).foldl
                (fun w p => cachePut (GetCacheVersionName scope (JsNum.num jsonData.version))
                  p.1 p.2 w)
                (cachesOpen (GetCacheVersionName scope (JsNum.num jsonData.version))
                  (afterFetches jsonData isFirstLoad w)).2) := by
  unfold CacheFileList
  simp only [foldl_fetch, afterFetches, OpenCacheForVersion]
  rfl

/-- C2. When a fetch of `CacheFileList` rejects, or a response is not OK, or
the number of responses differs from the number of files, `CacheFileList`
fails without any store operation: no cache is opened, nothing is put, the
store is unchanged, and no cache of the manifest's version appears. -/
theorem build_all_or_nothing (scope : JsString) (jsonData : Manifest) (isFirstLoad : Bool)
    (settled : List FetchOutcome) (w : World)
    (hfail : FetchOutcome.rejected ∈ settled ∨
      (∃ r, FetchOutcome.resolved r ∈ settled ∧ r.ok = false) ∨
      settled.length ≠ jsonData.files.length) :
    (∃ e, (CacheFileList scope jsonData isFirstLoad settled w).1 = Except.error e) ∧
    (CacheFileList scope jsonData isFirstLoad settled w).2.ops = w.ops ∧
    (CacheFileList scope jsonData isFirstLoad settled w).2.caches = w.caches ∧
    ((cachesHas (GetCacheVersionName scope (JsNum.num jsonData.version)) w).1 = false →
      (cachesHas (GetCacheVersionName scope (JsNum.num jsonData.version))
        (CacheFileList scope jsonData isFirstLoad settled w).2).1 = false) := by
  have key : (∃ e, (CacheFileList scope jsonData isFirstLoad settled w).1 = Except.error e) ∧
      (CacheFileList scope jsonData isFirstLoad settled w).2
        = afterFetches jsonData isFirstLoad w := by
    rw [CacheFileList_eq]
    cases hall : PromiseAll settled with
    | error e => exact ⟨⟨e, rfl⟩, rfl⟩
    | ok responseList =>
      have hs := (PromiseAll_ok settled responseList).1 hall
      simp only
      by_cases hlen : responseList.length ≠ jsonData.files.length
      · rw [if_pos hlen]
        exact ⟨⟨_, rfl⟩, rfl⟩
      · rw [if_neg hlen]
        have hbad : ∃ r ∈ responseList, r.ok = false := by
          rcases hfail with h | ⟨r, hr, hrok⟩ | h
          · rw [hs] at h
            obtain ⟨r, _, hr⟩ := List.mem_map.1 h
            exact FetchOutcome.noConfusion hr
          · rw [hs] at hr
            obtain ⟨r2, hr2, heq⟩ := List.mem_map.1 hr
            cases heq
            exact ⟨r, hr2, hrok⟩
          · rw [hs, List.length_map] at h
            exact absurd h hlen
        cases hfind : responseList.find? (fun r => !r.ok) with
        | some r => exact ⟨⟨_, rfl⟩, rfl⟩
        | none =>
          obtain ⟨r, hr, hrok⟩ := hbad
          have := List.find?_eq_none.1 hfind r hr
          simp [hrok] at this
  refine ⟨key.1, ?_, ?_, ?_⟩
  · rw [key.2]; rfl
  · rw [key.2]; rfl
  · rw [key.2]
    intro h
    exact h

theorem lookup_map_update (cache : Cache) (g : CacheEntries → CacheEntries) :
    ∀ l : List (JsString × CacheEntries),
      (l.map (fun e => if e.1 = cache then (e.1, g e.2) else e)).lookup cache
        = (l.lookup cache).map g := by
  intro l
  induction l with
  | nil => rfl
  | cons e l ih =>
    obtain ⟨k, v⟩ := e
    by_cases h : k = cache
    · subst h
      simp [List.lookup_cons]
    · have h2 : (cache == k) = false := by
        simp only [beq_eq_false_iff_ne, ne_eq]
        exact fun h3 => h h3.symm
      simp only [List.map_cons, h, if_false, List.lookup_cons, h2, ih]

theorem lookup_cachePut (cache : Cache) (f : JsString) (r : Response) (w : World) :
    (cachePut cache f r w).caches.lookup cache
      = (w.caches.lookup cache).map
          (fun es => es.filter (fun p => decide (p.1 ≠ f)) ++ [(f, r)]) :=
  lookup_map_update cache (fun es => es.filter (fun p => decide (p.1 ≠ f)) ++ [(f, r)]) w.caches

theorem hasEntry_cachePut_self (cache : Cache) (f : JsString) (r : Response) (w : World)
    (h : (w.caches.lookup cache).isSome = true) : hasEntry (cachePut cache f r w) cache f := by
  obtain ⟨es, hes⟩ := Option.isSome_iff_exists.1 h
  refine ⟨es.filter (fun p => decide (p.1 ≠ f)) ++ [(f, r)], r, ?_, ?_⟩
  · rw [lookup_cachePut, hes]
    rfl
  · simp

theorem hasEntry_cachePut_of (cache : Cache) (f g : JsString) (r : Response) (w : World)
    (h : hasEntry w cache g) : hasEntry (cachePut cache f r w) cache g := by
  obtain ⟨es, r0, hes, hmem⟩ := h
  by_cases hgf : g = f
  · subst hgf
    exact hasEntry_cachePut_self cache g r w (by rw [hes]; rfl)
  · refine ⟨es.filter (fun p => decide (p.1 ≠ f)) ++ [(f, r)], r0, ?_, ?_⟩
    · rw [lookup_cachePut, hes]
      rfl
    · apply List.mem_append_left
      exact List.mem_filter.2 ⟨hmem, by simpa using hgf⟩

theorem isSome_lookup_cachePut (cache : Cache) (f : JsString) (r : Response) (w : World)
    (h : (w.caches.lookup cache).isSome = true) :
    ((cachePut cache f r w).caches.lookup cache).isSome = true := by
  obtain ⟨es, hes⟩ := Option.isSome_iff_exists.1 h
  rw [lookup_cachePut, hes]
  rfl

theorem foldl_cachePut_keeps (cache : Cache) (ps : List (JsString × Response)) :
    ∀ (w : World) (g : JsString), hasEntry w cache g →
      hasEntry (ps.foldl (fun w p => cachePut cache p.1 p.2 w) w) cache g := by
  induction ps with
  | nil => intro w g h; exact h
  | cons p ps ih =>
    intro w g h
    rw [List.foldl_cons]
    exact ih _ g (hasEntry_cachePut_of cache p.1 g p.2 w h)

theorem foldl_cachePut_hasEntry (cache : Cache) (ps : List (JsString × Response)) :
    ∀ (w : World), (w.caches.lookup cache).isSome = true →
      ∀ p ∈ ps, hasEntry (ps.foldl (fun w p => cachePut cache p.1 p.2 w) w) cache p.1 := by
  induction ps with
  | nil => intro w _ p hp; exact absurd hp (List.not_mem_nil p)
  | cons q ps ih =>
    intro w hw p hp
    rw [List.foldl_cons]
    rcases List.mem_cons.1 hp with rfl | hp
    · exact foldl_cachePut_keeps cache ps _ _ (hasEntry_cachePut_self cache _ _ w hw)
    · exact ih _ (isSome_lookup_cachePut cache q.1 q.2 w hw) p hp

theorem foldl_cachePut_frame (cache : Cache) (ps : List (JsString × Response)) :
    ∀ (w : World),
      (ps.foldl (fun w p => cachePut cache p.1 p.2 w) w).ops
        = w.ops ++ ps.map (fun p => StoreOp.put cache p.1 p.2) ∧
      (ps.foldl (fun w p => cachePut cache p.1 p.2 w) w).fetched = w.fetched ∧
      (ps.foldl (fun w p => cachePut cache p.1 p.2 w) w).caches.map Prod.fst
        = w.caches.map Prod.fst := by
  induction ps with
  | nil => intro w; simp
  | cons p ps ih =>
    intro w
    rw [List.foldl_cons]
    obtain ⟨h1, h2, h3⟩ := ih (cachePut cache p.1 p.2 w)
    refine ⟨?_, ?_, ?_⟩
    · rw [h1]
      simp [cachePut]
    · rw [h2]
      rfl
    · rw [h3]
      simp only [cachePut, List.map_map]
      apply List.map_congr_left
      intro e _
      simp only [Function.comp]
      split <;> rfl

theorem isSome_lookup_of_any (name : JsString) : ∀ l : List (JsString × CacheEntries),
    l.any (fun e => decide (e.1 = name)) = true → (l.lookup name).isSome = true := by
  intro l
  induction l with
  | nil => intro h; simp at h
  | cons e l ih =>
    obtain ⟨k, v⟩ := e
    intro h
    by_cases hk : k = name
    · subst hk
      simp [List.lookup_cons]
    · have h2 : (name == k) = false := by
        simp only [beq_eq_false_iff_ne, ne_eq]
        exact fun h3 => hk h3.symm
      simp only [List.any_cons, hk, decide_False, Bool.false_or] at h
      simp only [List.lookup_cons, h2]
      exact ih h

theorem isSome_lookup_cachesOpen (name : JsString) (w : World) :
    ((cachesOpen name w).2.caches.lookup name).isSome = true := by
  apply isSome_lookup_of_any
  simp only [cachesOpen]
  split
  · assumption
  · simp

theorem mem_zip_of_mem {α β : Type} : ∀ (l1 : List α) (l2 : List β), l1.length = l2.length →
    ∀ a ∈ l1, ∃ b, (a, b) ∈ List.zip l1 l2 := by
  intro l1
  induction l1 with
  | nil => intro l2 _ a ha; exact absurd ha (List.not_mem_nil a)
  | cons x l1 ih =>
    intro l2 hlen a ha
    cases l2 with
    | nil => simp at hlen
    | cons y l2 =>
      rcases List.mem_cons.1 ha with rfl | ha
      · exact ⟨y, by simp⟩
      · obtain ⟨b, hb⟩ := ih l2 (by simpa using hlen) a ha
        exact ⟨b, by simp [hb]⟩

theorem isSome_lookup_of_mem (f : JsString) (r : Response) : ∀ entries : CacheEntries,
    (f, r) ∈ entries → (entries.lookup f).isSome = true := by
  intro entries
  induction entries with
  | nil => intro h; exact absurd h (List.not_mem_nil _)
  | cons e entries ih =>
    obtain ⟨k, v⟩ := e
    intro h
    by_cases hk : f = k
    · subst hk
      simp [List.lookup_cons]
    · have h2 : (f == k) = false := by simpa using hk
      simp only [List.lookup_cons, h2]
      apply ih
      rcases List.mem_cons.1 h with h | h
      · exact absurd (Prod.mk.inj h).1 hk
      · exact h

/-- C8. When every fetch resolves with an OK response (one per file),
`CacheFileList` succeeds; it opens exactly one cache, the one named
`"offline-" + scope + "-v" + version`, then issues one put per index of the
file list, pairing each file with its response; the only entity it may add to
the store is that cache; and afterwards that cache matches every file of the
manifest. -/
theorem build_success (scope : JsString) (jsonData : Manifest) (isFirstLoad : Bool)
    (responses : List Response) (w : World)
    (hlen : responses.length = jsonData.files.length)
    (hok : ∀ r ∈ responses, r.ok = true) :
    GetCacheVersionName scope (JsNum.num jsonData.version)
      = "offline-".toList ++ scope ++ "-v".toList ++ NumberToString (JsNum.num jsonData.version) ∧
    (CacheFileList scope jsonData isFirstLoad (responses.map FetchOutcome.resolved) w).1
      = Except.ok () ∧
    (CacheFileList scope jsonData isFirstLoad (responses.map FetchOutcome.resolved) w).2.ops
      = w.ops ++ StoreOp.openCache (GetCacheVersionName scope (JsNum.num jsonData.version)) ::
          (List.zip jsonData.files responses).map (fun p =>
            StoreOp.put (GetCacheVersionName scope (JsNum.num jsonData.version)) p.1 p.2) ∧
    (CacheFileList scope jsonData isFirstLoad
        (responses.map FetchOutcome.resolved) w).2.caches.map Prod.fst
      = (if (cachesHas (GetCacheVersionName scope (JsNum.num jsonData.version)) w).1
         then w.caches.map Prod.fst
         else w.caches.map Prod.fst ++ [GetCacheVersionName scope (JsNum.num jsonData.version)]) ∧
    (∀ request : Request, request.url ∈ jsonData.files →
      ((cacheMatch (GetCacheVersionName scope (JsNum.num jsonData.version)) request
        (CacheFileList scope jsonData isFirstLoad
          (responses.map FetchOutcome.resolved) w).2).1).isSome = true) := by
  have hall : PromiseAll (responses.map FetchOutcome.resolved) = Except.ok responses :=
    (PromiseAll_ok _ responses).2 rfl
  have hfind : responses.find? (fun r => !r.ok) = none := by
    apply List.find?_eq_none.2
    intro r hr
    simp [hok r hr]
  have hres : CacheFileList scope jsonData isFirstLoad (responses.map FetchOutcome.resolved) w
      = (Except.ok (), (List.zip jsonData.files responses).foldl
          (fun w p => cachePut (GetCacheVersionName scope (JsNum.num jsonData.version))
            p.1 p.2 w)
          (cachesOpen (GetCacheVersionName scope (JsNum.num jsonData.version))
            (afterFetches jsonData isFirstLoad w)).2) := by
    rw [CacheFileList_eq, hall]
    simp only [hlen, ne_eq, not_true_eq_false, if_false, hfind]
  obtain ⟨hops, _, hkeys⟩ := foldl_cachePut_frame
    (GetCacheVersionName scope (JsNum.num jsonData.version)) (List.zip jsonData.files responses)
    (cachesOpen (GetCacheVersionName scope (JsNum.num jsonData.version))
      (afterFetches jsonData isFirstLoad w)).2
  refine ⟨?_, ?_, ?_, ?_, ?_⟩
  · simp only [GetCacheVersionName, GetCacheBaseName, CACHE_NAME_PREFIX, List.append_assoc]
    rfl
  · rw [hres]
  · rw [hres]
    refine Eq.trans hops ?_
    rw [cachesOpen_ops]
    simp only [afterFetches, List.append_assoc, List.singleton_append]
  · rw [hres]
    refine Eq.trans hkeys ?_
    simp only [cachesOpen, cachesHas, afterFetches]
    split
    · rfl
    · rw [List.map_append]
      rfl
  · intro request hreq
    rw [hres]
    obtain ⟨r, hr⟩ := mem_zip_of_mem jsonData.files responses hlen.symm request.url hreq
    obtain ⟨entries, r2, hentries, hmem⟩ := foldl_cachePut_hasEntry
      (GetCacheVersionName scope (JsNum.num jsonData.version)) (List.zip jsonData.files responses)
      (cachesOpen (GetCacheVersionName scope (JsNum.num jsonData.version))
        (afterFetches jsonData isFirstLoad w)).2
      (isSome_lookup_cachesOpen _ _) (request.url, r) hr
    simp only [cacheMatch, hentries, Option.some_bind]
    exact isSome_lookup_of_mem request.url r2 entries hmem

theorem build_success_witness :
    (CacheFileList exampleScope manifest5 true
        ([okResponse "a.js", okResponse "b.js"].map FetchOutcome.resolved) (storeOf [])).1
      = Except.ok () ∧
    (CacheFileList exampleScope manifest5 true
        ([okResponse "a.js", okResponse "b.js"].map FetchOutcome.resolved) (storeOf [])).2.caches
      = [("offline-https://a.test/-v5".toList,
          [("a.js".toList, okResponse "a.js"), ("b.js".toList, okResponse "b.js")])] ∧
    (∀ request : Request, request.url ∈ manifest5.files →
      ((cacheMatch (GetCacheVersionName exampleScope (JsNum.num manifest5.version)) request
        (CacheFileList exampleScope manifest5 true
          ([okResponse "a.js", okResponse "b.js"].map FetchOutcome.resolved)
          (storeOf [])).2).1).isSome = true) :=
  ⟨rfl, by decide,
   (build_success exampleScope manifest5 true [okResponse "a.js", okResponse "b.js"]
      (storeOf []) (by decide) (by decide)).2.2.2.2⟩

theorem build_all_or_nothing_witness :
    (∃ e, (CacheFileList exampleScope manifest5 false
        [FetchOutcome.resolved (okResponse "a.js"), FetchOutcome.resolved (failedResponse "b.js")]
        (storeOf [])).1 = Except.error e) ∧
    (CacheFileList exampleScope manifest5 false
        [FetchOutcome.resolved (okResponse "a.js"), FetchOutcome.resolved (failedResponse "b.js")]
        (storeOf [])).2.ops = (storeOf []).ops ∧
    (CacheFileList exampleScope manifest5 false
        [FetchOutcome.resolved (okResponse "a.js"), FetchOutcome.resolved (failedResponse "b.js")]
        (storeOf [])).2.caches = (storeOf []).caches ∧
    ((cachesHas (GetCacheVersionName exampleScope (JsNum.num manifest5.version))
        (storeOf [])).1 = false →
      (cachesHas (GetCacheVersionName exampleScope (JsNum.num manifest5.version))
        (CacheFileList exampleScope manifest5 false
          [FetchOutcome.resolved (okResponse "a.js"),
            FetchOutcome.resolved (failedResponse "b.js")]
          (storeOf [])).2).1 = false) :=
  build_all_or_nothing exampleScope manifest5 false
    [FetchOutcome.resolved (okResponse "a.js"), FetchOutcome.resolved (failedResponse "b.js")]
    (storeOf []) (Or.inr (Or.inl ⟨failedResponse "b.js", by decide, by decide⟩))

/-- After a successful build the store has the cache of the version. -/
theorem build_success_keys (scope : JsString) (jsonData : Manifest) (isFirstLoad : Bool)
    (responses : List Response) (w : World)
    (hlen : responses.length = jsonData.files.length)
    (hok : ∀ r ∈ responses, r.ok = true) :
    (cachesHas (GetCacheVersionName scope (JsNum.num jsonData.version))
      (CacheFileList scope jsonData isFirstLoad (responses.map FetchOutcome.resolved) w).2).1
      = true := by
  have hall : PromiseAll (responses.map FetchOutcome.resolved) = Except.ok responses :=
    (PromiseAll_ok _ responses).2 rfl
  have hfind : responses.find? (fun r => !r.ok) = none := by
    apply List.find?_eq_none.2
    intro r hr
    simp [hok r hr]
  have hkeys := (foldl_cachePut_frame
    (GetCacheVersionName scope (JsNum.num jsonData.version)) (List.zip jsonData.files responses)
    (cachesOpen (GetCacheVersionName scope (JsNum.num jsonData.version))
      (afterFetches jsonData isFirstLoad w)).2).2.2
  rw [CacheFileList_eq, hall]
  simp only [hlen, ne_eq, not_true_eq_false, if_false, hfind]
  have hany : ∀ l : List (JsString × CacheEntries),
      l.any (fun e => decide (e.1 = GetCacheVersionName scope (JsNum.num jsonData.version)))
        = (l.map Prod.fst).any
            (fun k => decide (k = GetCacheVersionName scope (JsNum.num jsonData.version))) := by
    intro l
    induction l with
    | nil => rfl
    | cons e l ih => simp only [List.any_cons, List.map_cons, ih]
  simp only [cachesHas]
  rw [hany, hkeys, ← hany]
  simp only [cachesOpen, afterFetches]
  split
  · assumption
  · simp

/-! ## Update check -/

theorem unshiftMainPageUrl_version (mainPageUrl : JsString) (data : Manifest) :
    (unshiftMainPageUrl mainPageUrl data).version = data.version := by
  unfold unshiftMainPageUrl
  split <;> rfl

theorem FetchOfflineJs_ok (rand : Nat) (response : Response) (data : Manifest) (w : World)
    (hok : response.ok = true) (hjson : response.json = some data) :
    FetchOfflineJs rand (FetchOutcome.resolved response) w
      = (Except.ok data, { w with fetched := w.fetched ++ [offlineJsRequest rand] }) := by
  simp only [FetchOfflineJs, hok, hjson, fetch]
  rfl

/-- The update check when the cache of the manifest's version exists: the
manifest is fetched, `caches.has` is asked, and nothing else happens. -/
theorem CheckForUpdate_of_exists (scope mainPageUrl : JsString) (rand : Nat)
    (response : Response) (data : Manifest) (settled : List FetchOutcome) (w : World)
    (hok : response.ok = true) (hjson : response.json = some data)
    (hexists : (cachesHas (GetCacheVersionName scope (JsNum.num data.version)) w).1 = true) :
    CheckForUpdate scope mainPageUrl rand (FetchOutcome.resolved response) settled w
      = { caches := w.caches
          ops := w.ops ++ [StoreOp.has (GetCacheVersionName scope (JsNum.num data.version))]
          fetched := w.fetched ++ [offlineJsRequest rand] } := by
  have hex2 : (cachesHas (GetCacheVersionName scope (JsNum.num data.version))
      { w with fetched := w.fetched ++ [offlineJsRequest rand] }).1 = true := hexists
  unfold CheckForUpdate
  simp only [FetchOfflineJs_ok rand response data w hok hjson, unshiftMainPageUrl_version, hex2,
    if_true]
  rfl

theorem CacheFileList_fetched (scope : JsString) (jsonData : Manifest) (isFirstLoad : Bool)
    (settled : List FetchOutcome) (w : World) :
    (CacheFileList scope jsonData isFirstLoad settled w).2.fetched
      = w.fetched ++ jsonData.files.map
          (fileRequest (if isFirstLoad then CacheMode.default else CacheMode.reload)) := by
  rw [CacheFileList_eq]
  split
  · rfl
  · split
    · rfl
    · split
      · rfl
      · exact (foldl_cachePut_frame _ _ _).2.1

/-- C6. When the manifest is fetched and the store already has the cache named
after its version, `CheckForUpdate` fetches nothing but the manifest, asks
`caches.has` and does nothing else: no cache is opened or created, nothing is
put, the store is unchanged. And once a first check has built the version
(every file fetched OK), a later check for a manifest of the same version
leaves the store as it is. -/
theorem update_idempotent (scope mainPageUrl : JsString) (rand : Nat)
    (response : Response) (data : Manifest) (w : World)
    (hok : response.ok = true) (hjson : response.json = some data) :
    ((cachesHas (GetCacheVersionName scope (JsNum.num data.version)) w).1 = true →
      ∀ settled : List FetchOutcome,
        CheckForUpdate scope mainPageUrl rand (FetchOutcome.resolved response) settled w
          = { caches := w.caches
              ops := w.ops ++ [StoreOp.has (GetCacheVersionName scope (JsNum.num data.version))]
              fetched := w.fetched ++ [offlineJsRequest rand] }) ∧
    (∀ responses : List Response,
      responses.length
        = (unshiftMainPageUrl (NormalizeMainPageUrl scope mainPageUrl) data).files.length →
      (∀ r ∈ responses, r.ok = true) →
      ∀ (mainPageUrl2 : JsString) (rand2 : Nat) (response2 : Response) (data2 : Manifest)
        (settled2 : List FetchOutcome),
        response2.ok = true → response2.json = some data2 → data2.version = data.version →
        CheckForUpdate scope mainPageUrl2 rand2 (FetchOutcome.resolved response2) settled2
            (CheckForUpdate scope mainPageUrl rand (FetchOutcome.resolved response)
              (responses.map FetchOutcome.resolved) w)
          = { caches := (CheckForUpdate scope mainPageUrl rand (FetchOutcome.resolved response)
                (responses.map FetchOutcome.resolved) w).caches
              ops := (CheckForUpdate scope mainPageUrl rand (FetchOutcome.resolved response)
                (responses.map FetchOutcome.resolved) w).ops
                ++ [StoreOp.has (GetCacheVersionName scope (JsNum.num data.version))]
              fetched := (CheckForUpdate scope mainPageUrl rand (FetchOutcome.resolved response)
                (responses.map FetchOutcome.resolved) w).fetched ++ [offlineJsRequest rand2] }) := by
  constructor
  · intro hexists settled
    exact CheckForUpdate_of_exists scope mainPageUrl rand response data settled w hok hjson hexists
  · intro responses hlen hrok mainPageUrl2 rand2 response2 data2 settled2 hok2 hjson2 hver
    have hbuilt : (cachesHas (GetCacheVersionName scope (JsNum.num data2.version))
        (CheckForUpdate scope mainPageUrl rand (FetchOutcome.resolved response)
          (responses.map FetchOutcome.resolved) w)).1 = true := by
      rw [hver]
      by_cases hex : (cachesHas (GetCacheVersionName scope (JsNum.num data.version)) w).1 = true
      · rw [CheckForUpdate_of_exists scope mainPageUrl rand response data _ w hok hjson hex]
        exact hex
      · have hex2 : (cachesHas (GetCacheVersionName scope (JsNum.num data.version))
            { w with fetched := w.fetched ++ [offlineJsRequest rand] }).1 = false := by
          simpa using hex
        have hkeys := (build_success_keys scope
          (unshiftMainPageUrl (NormalizeMainPageUrl scope mainPageUrl) data) false responses
          (cachesHas (GetCacheVersionName scope (JsNum.num data.version))
            { w with fetched := w.fetched ++ [offlineJsRequest rand] }).2 hlen hrok)
        unfold CheckForUpdate
        simp only [FetchOfflineJs_ok rand response data w hok hjson, unshiftMainPageUrl_version,
          hex2, Bool.false_eq_true, if_false]
        rw [unshiftMainPageUrl_version] at hkeys
        exact hkeys
    have h2 := CheckForUpdate_of_exists scope mainPageUrl2 rand2 response2 data2 settled2 _
      hok2 hjson2 hbuilt
    rw [h2, hver]

theorem update_idempotent_witness :
    CheckForUpdate exampleScope "https://a.test/index.html".toList 42
        (FetchOutcome.resolved manifest5Response) [] storeV5
      = { caches := storeV5.caches
          ops := storeV5.ops ++
            [StoreOp.has (GetCacheVersionName exampleScope (JsNum.num manifest5.version))]
          fetched := storeV5.fetched ++ [offlineJsRequest 42] } :=
  (update_idempotent exampleScope "https://a.test/index.html".toList 42 manifest5Response
    manifest5 storeV5 rfl rfl).1 (by decide) []

/-! ## Scope-root normalization -/

theorem isPrefixOf_self (l : JsString) : l.isPrefixOf l = true := by
  induction l with
  | nil => rfl
  | cons a l ih => simp [List.isPrefixOf, ih]

theorem NormalizeMainPageUrl_scope (scope : JsString) :
    NormalizeMainPageUrl scope scope = scope := by
  simp [NormalizeMainPageUrl, indexOfIsZero, substr, truthy, isPrefixOf_self]

/-- C7. `NormalizeMainPageUrl(url)` is the scope when `url` is the scope, is
`url` without the scope in front when `url` starts with the scope and is
longer, and is `url` when `url` does not start with the scope. An entry put
at the front of the file list is never the empty string. Hence, for a
(non-empty) scope and a main page address equal to it, the entry put at the
front of the file list by `CheckForUpdate` and by the activate listener is the
scope itself: it heads the files they request. -/
theorem scope_root_normalization (scope url : JsString) :
    (url = scope → NormalizeMainPageUrl scope url = scope) ∧
    (indexOfIsZero url scope = true → scope.length < url.length →
      NormalizeMainPageUrl scope url = substr url scope.length ∧
      scope ++ NormalizeMainPageUrl scope url = url) ∧
    (indexOfIsZero url scope = false → NormalizeMainPageUrl scope url = url) ∧
    (∀ data : Manifest,
      (unshiftMainPageUrl (NormalizeMainPageUrl scope url) data).files = data.files ∨
      (NormalizeMainPageUrl scope url ≠ [] ∧
        (unshiftMainPageUrl (NormalizeMainPageUrl scope url) data).files
          = NormalizeMainPageUrl scope url :: data.files)) ∧
    (scope ≠ [] → url = scope →
      ∀ (data : Manifest) (rand : Nat) (response : Response) (settled : List FetchOutcome)
        (otherClients : List JsString) (w : World),
        response.ok = true → response.json = some data →
        unshiftMainPageUrl (NormalizeMainPageUrl scope url) data
          = { data with files := scope :: data.files } ∧
        ((cachesHas (GetCacheVersionName scope (JsNum.num data.version)) w).1 = false →
          (CheckForUpdate scope url rand (FetchOutcome.resolved response) settled w).fetched
            = w.fetched ++ offlineJsRequest rand ::
                (scope :: data.files).map (fileRequest CacheMode.reload)) ∧
        (onActivate scope (url :: otherClients) rand (FetchOutcome.resolved response)
            settled w).fetched
          = w.fetched ++ offlineJsRequest rand ::
              (scope :: data.files).map (fileRequest CacheMode.default)) := by
  refine ⟨?_, ?_, ?_, ?_, ?_⟩
  · rintro rfl
    exact NormalizeMainPageUrl_scope url
  · intro hpre hlen
    have hne : (substr url scope.length) ≠ [] := by
      intro h0
      have := congrArg List.length h0
      simp only [substr, List.length_drop, List.length_nil] at this
      omega
    have hnorm : NormalizeMainPageUrl scope url = substr url scope.length := by
      simp only [NormalizeMainPageUrl, hpre, if_true, truthy]
      cases hd : substr url scope.length with
      | nil => exact absurd hd hne
      | cons a l => rfl
    refine ⟨hnorm, ?_⟩
    rw [hnorm]
    obtain ⟨t, rfl⟩ := List.isPrefixOf_iff_prefix.1 hpre
    simp [substr]
  · intro hpre
    simp [NormalizeMainPageUrl, hpre]
  · intro data
    unfold unshiftMainPageUrl
    split
    · rename_i ht
      right
      refine ⟨?_, rfl⟩
      intro h0
      rw [h0] at ht
      exact Bool.noConfusion ht
    · left
      rfl
  · rintro hscope rfl data rand response settled otherClients w hok hjson
    have hunshift : unshiftMainPageUrl (NormalizeMainPageUrl url url) data
        = { data with files := url :: data.files } := by
      rw [NormalizeMainPageUrl_scope]
      cases url with
      | nil => exact absurd rfl hscope
      | cons a l => rfl
    refine ⟨hunshift, ?_, ?_⟩
    · intro hex
      have hex2 : (cachesHas (GetCacheVersionName url (JsNum.num data.version))
          { w with fetched := w.fetched ++ [offlineJsRequest rand] }).1 = false := hex
      unfold CheckForUpdate
      simp only [FetchOfflineJs_ok rand response data w hok hjson, hunshift, hex2,
        Bool.false_eq_true, if_false, CacheFileList_fetched]
      simp [cachesHas]
    · unfold onActivate
      simp only [FetchOfflineJs_ok rand response data w hok hjson, GetMainPageUrl, hunshift,
        CacheFileList_fetched]
      simp

theorem scope_root_normalization_witness :
    unshiftMainPageUrl (NormalizeMainPageUrl exampleScope exampleScope) manifest5
      = { manifest5 with files := exampleScope :: manifest5.files } ∧
    ((cachesHas (GetCacheVersionName exampleScope (JsNum.num manifest5.version))
        (storeOf [])).1 = false →
      (CheckForUpdate exampleScope exampleScope 42 (FetchOutcome.resolved manifest5Response) []
          (storeOf [])).fetched
        = (storeOf []).fetched ++ offlineJsRequest 42 ::
            (exampleScope :: manifest5.files).map (fileRequest CacheMode.reload)) ∧
    (onActivate exampleScope (exampleScope :: []) 42 (FetchOutcome.resolved manifest5Response) []
        (storeOf [])).fetched
      = (storeOf []).fetched ++ offlineJsRequest 42 ::
          (exampleScope :: manifest5.files).map (fileRequest CacheMode.default) :=
  (scope_root_normalization exampleScope exampleScope).2.2.2.2 (by decide) rfl manifest5 42
    manifest5Response [] [] (storeOf []) rfl rfl

/-! ## Fallback on miss -/

theorem FindNewestCacheAndDeleteOlder_fetched (scope : JsString) (w : World) :
    (FindNewestCacheAndDeleteOlder scope w).2.fetched = w.fetched := by
  rw [FindNewestCacheAndDeleteOlder_eq]
  split <;> rfl

theorem FindNewestCache_fetched (scope : JsString) (w : World) :
    (FindNewestCache scope w).2.fetched = w.fetched := by
  rw [FindNewestCache_eq]
  split <;> rfl

theorem GetCacheForClientId_fetched (scope : JsString) (clientId : ClientId) (m : ClientMap)
    (w : World) : (GetCacheForClientId scope clientId m w).2.2.fetched = w.fetched := by
  unfold GetCacheForClientId
  split
  · rfl
  · exact FindNewestCache_fetched scope w

theorem cacheMatch_fetched (cache : Cache) (request : Request) (w : World) :
    (cacheMatch cache request w).2.fetched = w.fetched := rfl

theorem FindNewestCacheAndDeleteOlder_split (scope : JsString) (w : World) :
    FindNewestCacheAndDeleteOlder scope w
      = FindNewestCacheAndDeleteOlder_then scope (cachesKeys w).1 (cachesKeys w).2 := rfl

/-- The update check is its start followed by its continuation. -/
theorem CheckForUpdate_split (scope mainPageUrl : JsString) (rand : Nat)
    (manifestSettled : FetchOutcome) (settled : List FetchOutcome) (w : World) :
    CheckForUpdate scope mainPageUrl rand manifestSettled settled w
      = CheckForUpdate_then scope (CheckForUpdate_start scope mainPageUrl rand w).1
          manifestSettled settled (CheckForUpdate_start scope mainPageUrl rand w).2 := by
  unfold CheckForUpdate CheckForUpdate_then CheckForUpdate_start FetchOfflineJs
  cases manifestSettled with
  | rejected => rfl
  | resolved response =>
    by_cases hok : response.ok = true
    · cases hjson : response.json with
      | none => simp [hok, hjson]
      | some data => simp [hok, hjson]
    · simp [hok]

/-- The requests already sent do not matter to the prune. -/
theorem FindNewestCacheAndDeleteOlder_then_fetched (scope : JsString)
    (keyList : List JsString) (w : World) (sent : List Request) :
    FindNewestCacheAndDeleteOlder_then scope keyList { w with fetched := sent }
      = ((FindNewestCacheAndDeleteOlder_then scope keyList w).1,
         { (FindNewestCacheAndDeleteOlder_then scope keyList w).2 with fetched := sent }) := by
  unfold FindNewestCacheAndDeleteOlder_then
  simp only [foldl_cachesDelete]
  split <;> rfl

/-- The navigation branch of the listener, in terms of the prune of the
store as the listener found it. -/
theorem onFetch_navigate (scope : JsString) (event : FetchEvent) (rand : Nat) (m : ClientMap)
    (w : World) (hscope : indexOfIsZero event.request.url scope = true)
    (hnav : event.request.mode = RequestMode.navigate) :
    onFetch scope event rand m w
      = { respondWith :=
            (ReturnResponseOrFetch event.request
              (match (FindNewestCacheAndDeleteOlder scope w).1 with
                | some cache =>
                  (cacheMatch cache event.request (FindNewestCacheAndDeleteOlder scope w).2).1
                | none => none)
              { (FindNewestCacheAndDeleteOlder scope w).2 with
                fetched := w.fetched ++ [offlineJsRequest rand] }).1
          checkForUpdate := some (NormalizeMainPageUrl scope event.request.url)
          clientIdToCache := m
          world :=
            { (ReturnResponseOrFetch event.request
                (match (FindNewestCacheAndDeleteOlder scope w).1 with
                  | some cache =>
                    (cacheMatch cache event.request (FindNewestCacheAndDeleteOlder scope w).2).1
                  | none => none)
                { (FindNewestCacheAndDeleteOlder scope w).2 with
                  fetched := w.fetched ++ [offlineJsRequest rand] }).2 with
              ops := (FindNewestCacheAndDeleteOlder scope w).2.ops ++
                (match (FindNewestCacheAndDeleteOlder scope w).1 with
                  | some cache => [StoreOp.matchRequest cache event.request]
                  | none => []) } } := by
  have hsplit := FindNewestCacheAndDeleteOlder_split scope w
  have hf := FindNewestCacheAndDeleteOlder_then_fetched scope (cachesKeys w).1 (cachesKeys w).2
    (w.fetched ++ [offlineJsRequest rand])
  have hw : fetch (offlineJsRequest rand) (cachesKeys w).2
      = { (cachesKeys w).2 with fetched := w.fetched ++ [offlineJsRequest rand] } := rfl
  simp only [onFetch, hscope, hnav, if_true, CheckForUpdate_start, hw, hf, ← hsplit]
  cases hsel : (FindNewestCacheAndDeleteOlder scope w).1 with
  | none =>
    simp [ReturnResponseOrFetch, fetch]
  | some cache =>
    simp only [cacheMatch]
    cases (List.lookup cache (FindNewestCacheAndDeleteOlder scope w).2.caches).bind
        (fun entries => List.lookup event.request.url entries) with
    | none => simp [ReturnResponseOrFetch, fetch]
    | some r => simp [ReturnResponseOrFetch]

/-- C10, amended. For a request in scope, in both request classes: when no
cache is available, or the selected cache has no match for the request,
`respondWith` receives the promise of a live fetch of that same request, and
this request goes out; when the cache has a match, `respondWith` receives
that cached response and the request does not go out. In the navigation class
the listener has started the update check before, so the request for
`offline.js` goes out in every case; in the other class a match means that no
request goes out at all. -/
theorem fallback_on_miss (scope : JsString) (event : FetchEvent) (rand : Nat) (m : ClientMap)
    (w : World) (hscope : indexOfIsZero event.request.url scope = true) :
    (event.request.mode = RequestMode.navigate →
      ((FindNewestCacheAndDeleteOlder scope w).1 = none →
        (onFetch scope event rand m w).respondWith = Served.network event.request ∧
        (onFetch scope event rand m w).world.fetched
          = w.fetched ++ [offlineJsRequest rand, event.request]) ∧
      (∀ cache, (FindNewestCacheAndDeleteOlder scope w).1 = some cache →
        (cacheMatch cache event.request (FindNewestCacheAndDeleteOlder scope w).2).1 = none →
        (onFetch scope event rand m w).respondWith = Served.network event.request ∧
        (onFetch scope event rand m w).world.fetched
          = w.fetched ++ [offlineJsRequest rand, event.request]) ∧
      (∀ cache r, (FindNewestCacheAndDeleteOlder scope w).1 = some cache →
        (cacheMatch cache event.request (FindNewestCacheAndDeleteOlder scope w).2).1 = some r →
        (onFetch scope event rand m w).respondWith = Served.response r ∧
        (onFetch scope event rand m w).world.fetched = w.fetched ++ [offlineJsRequest rand])) ∧
    (event.request.mode ≠ RequestMode.navigate →
      ((GetCacheForClientId scope event.clientId m w).1 = none →
        (onFetch scope event rand m w).respondWith = Served.network event.request ∧
        (onFetch scope event rand m w).world.fetched = w.fetched ++ [event.request]) ∧
      (∀ cache, (GetCacheForClientId scope event.clientId m w).1 = some cache →
        (cacheMatch cache event.request (GetCacheForClientId scope event.clientId m w).2.2).1
          = none →
        (onFetch scope event rand m w).respondWith = Served.network event.request ∧
        (onFetch scope event rand m w).world.fetched = w.fetched ++ [event.request]) ∧
      (∀ cache r, (GetCacheForClientId scope event.clientId m w).1 = some cache →
        (cacheMatch cache event.request (GetCacheForClientId scope event.clientId m w).2.2).1
          = some r →
        (onFetch scope event rand m w).respondWith = Served.response r ∧
        (onFetch scope event rand m w).world.fetched = w.fetched)) := by
  have hg := GetCacheForClientId_fetched scope event.clientId m w
  constructor
  · intro hnav
    rw [onFetch_navigate scope event rand m w hscope hnav]
    refine ⟨?_, ?_, ?_⟩
    · intro hnone
      simp [hnone, ReturnResponseOrFetch, fetch]
    · intro cache hsome hmiss
      simp [hsome, hmiss, ReturnResponseOrFetch, fetch]
    · intro cache r hsome hhit
      simp [hsome, hhit, ReturnResponseOrFetch]
  · intro hnav
    refine ⟨?_, ?_, ?_⟩
    · intro hnone
      simp only [onFetch, hscope, hnav, if_true, if_false, MatchRequestForClientCache, hnone,
        ReturnResponseOrFetch, fetch, hg, and_self]
    · intro cache hsome hmiss
      simp only [onFetch, hscope, hnav, if_true, if_false, MatchRequestForClientCache, hsome,
        hmiss, ReturnResponseOrFetch, fetch, cacheMatch_fetched, hg, and_self]
    · intro cache r hsome hhit
      simp only [onFetch, hscope, hnav, if_true, if_false, MatchRequestForClientCache, hsome,
        hhit, ReturnResponseOrFetch, cacheMatch_fetched, hg, and_self]

theorem fallback_on_miss_witness :
    (onFetch exampleScope navigateEvent 42 [] store132).respondWith
      = Served.network navigateEvent.request ∧
    (onFetch exampleScope navigateEvent 42 [] store132).world.fetched
      = store132.fetched ++ [offlineJsRequest 42, navigateEvent.request] :=
  ((fallback_on_miss exampleScope navigateEvent 42 [] store132 (by decide)).1 rfl).2.1
    "offline-https://a.test/-v3".toList (by decide) (by decide)

/-- C10, as stated, fails: a navigation whose request is in the newest cache
is answered from the cache, and still a fetch is made, the one for
`offline.js` of the update check the listener starts. -/
theorem fetch_made_on_hit :
    (onFetch exampleScope navigateEvent 42 [] storeHit).respondWith
      = Served.response (okResponse "https://a.test/index.html") ∧
    (onFetch exampleScope navigateEvent 42 [] storeHit).world.fetched = [offlineJsRequest 42] ∧
    (onFetch exampleScope navigateEvent 42 [] storeHit).world.fetched ≠ storeHit.fetched := by
  refine ⟨by decide, by decide, by decide⟩

/-! ## Pin-once -/

theorem mapHas_append (m l : ClientMap) (clientId : ClientId) :
    mapHas (m ++ l) clientId = (mapHas m clientId || mapHas l clientId) := by
  simp [mapHas, List.any_append]

theorem mapHas_iff_mem (m : ClientMap) (clientId : ClientId) :
    mapHas m clientId = true ↔ clientId ∈ m.map Prod.fst := by
  induction m with
  | nil => simp [mapHas]
  | cons e m ih =>
    unfold mapHas at ih ⊢
    simp only [List.any_cons, Bool.or_eq_true, decide_eq_true_eq, List.map_cons, List.mem_cons,
      ih]
    constructor
    · rintro (h | h)
      · exact Or.inl h.symm
      · exact Or.inr h
    · rintro (h | h)
      · exact Or.inl h.symm
      · exact Or.inr h

theorem mapGet_append_left (m l : ClientMap) (clientId : ClientId)
    (h : mapHas m clientId = true) : mapGet (m ++ l) clientId = mapGet m clientId := by
  induction m with
  | nil => simp [mapHas] at h
  | cons e m ih =>
    by_cases he : e.1 = clientId
    · simp [mapGet, List.find?_cons, he]
    · have h2 : mapHas m clientId = true := by
        simpa [mapHas, he] using h
      have := ih h2
      simp only [mapGet, List.cons_append, List.find?_cons, he, decide_False] at this ⊢
      exact this

theorem mapGet_append_new (m : ClientMap) (clientId : ClientId) (cache : Option Cache)
    (h : mapHas m clientId = false) : mapGet (m ++ [(clientId, cache)]) clientId = cache := by
  induction m with
  | nil => simp [mapGet]
  | cons e m ih =>
    have h1 : ¬ e.1 = clientId := by
      intro he
      simp [mapHas, he] at h
    have h2 : mapHas m clientId = false := by
      simpa [mapHas, h1] using h
    have := ih h2
    simp only [mapGet, List.cons_append, List.find?_cons, h1, decide_False] at this ⊢
    exact this

/-- What one step does to the map and to the list of results. -/
theorem step_cases (b : Binder) (e : Event) :
    ((step b e).clientIdToCache = b.clientIdToCache ∧ (step b e).returned = b.returned) ∨
    (∃ clientId r, (step b e).clientIdToCache = b.clientIdToCache ∧
      (step b e).returned = b.returned ++ [(clientId, r)] ∧
      (clientIdTruthy clientId = true →
        mapHas b.clientIdToCache clientId = true ∧ mapGet b.clientIdToCache clientId = r)) ∨
    (∃ clientId cache, mapHas b.clientIdToCache clientId = false ∧
      b.waiting.get? (match e with
        | Event.lookupResolved i _ => i
        | _ => 0) = some clientId ∧
      (match e with
        | Event.lookupResolved _ c => c = cache
        | _ => False) ∧
      (step b e).clientIdToCache = b.clientIdToCache ++ [(clientId, cache)] ∧
      (step b e).returned = b.returned ++ [(clientId, cache)]) := by
  cases e with
  | call clientId =>
    simp only [step, GetCacheForClientId_start]
    by_cases ht : clientIdTruthy clientId = true
    · by_cases hh : mapHas b.clientIdToCache clientId = true
      · right; left
        refine ⟨clientId, mapGet b.clientIdToCache clientId, ?_, ?_, ?_⟩
        · simp [ht, hh]
        · simp [ht, hh]
        · intro _; exact ⟨hh, rfl⟩
      · left
        simp [ht, hh]
    · right; left
      refine ⟨clientId, none, ?_, ?_, ?_⟩
      · simp [ht]
      · simp [ht]
      · intro h; exact absurd h ht
  | lookupResolved i cache =>
    simp only [step]
    cases hw : b.waiting.get? i with
    | none => left; exact ⟨rfl, rfl⟩
    | some clientId =>
      simp only [GetCacheForClientId_then]
      by_cases hh : mapHas b.clientIdToCache clientId = true
      · right; left
        refine ⟨clientId, mapGet b.clientIdToCache clientId, ?_, ?_, ?_⟩
        · simp [hh]
        · simp [hh]
        · intro _; exact ⟨hh, rfl⟩
      · right; right
        have hh2 : mapHas b.clientIdToCache clientId = false := by simpa using hh
        refine ⟨clientId, cache, hh2, rfl, rfl, ?_, ?_⟩
        · simp [hh2, mapSet]
        · simp [hh2]
  | lookupRejected i =>
    left
    exact ⟨rfl, rfl⟩

/-- An entry of the map, once present, is kept by every step. -/
theorem step_keeps_entry (b : Binder) (e : Event) (clientId : ClientId)
    (h : mapHas b.clientIdToCache clientId = true) :
    mapHas (step b e).clientIdToCache clientId = true ∧
    mapGet (step b e).clientIdToCache clientId = mapGet b.clientIdToCache clientId := by
  rcases step_cases b e with ⟨ht, _⟩ | ⟨_, _, ht, _⟩ | ⟨id2, cache, _, _, _, ht, _⟩
  · rw [ht]; exact ⟨h, rfl⟩
  · rw [ht]; exact ⟨h, rfl⟩
  · rw [ht, mapHas_append, h, mapGet_append_left _ _ _ h]
    exact ⟨rfl, rfl⟩

theorem run_keeps_entry (events : List Event) : ∀ (b : Binder) (clientId : ClientId),
    mapHas b.clientIdToCache clientId = true →
    mapHas (run b events).clientIdToCache clientId = true ∧
    mapGet (run b events).clientIdToCache clientId = mapGet b.clientIdToCache clientId := by
  induction events with
  | nil => intro b clientId h; exact ⟨h, rfl⟩
  | cons e events ih =>
    intro b clientId h
    have h1 := step_keeps_entry b e clientId h
    have h2 := ih (step b e) clientId h1.1
    exact ⟨h2.1, h2.2.trans h1.2⟩

theorem Pinned_initial : Pinned Binder.initial := by
  refine ⟨List.nodup_nil, ?_⟩
  intro clientId r h
  exact absurd h (List.not_mem_nil _)

theorem Pinned_step (b : Binder) (e : Event) (h : Pinned b) : Pinned (step b e) := by
  obtain ⟨hnd, hret⟩ := h
  rcases step_cases b e with ⟨ht, hr⟩ | ⟨id2, r2, ht, hr, hprop⟩ | ⟨id2, cache, hno, _, _, ht, hr⟩
  · rw [Pinned, ht, hr]
    exact ⟨hnd, hret⟩
  · rw [Pinned, ht, hr]
    refine ⟨hnd, ?_⟩
    intro clientId r hmem htruthy
    rcases List.mem_append.1 hmem with hmem | hmem
    · exact hret clientId r hmem htruthy
    · cases List.mem_singleton.1 hmem
      exact hprop htruthy
  · rw [Pinned, ht, hr]
    constructor
    · rw [List.map_append, List.nodup_append]
      refine ⟨hnd, by simp, ?_⟩
      intro a ha hb
      simp only [List.map_cons, List.map_nil, List.mem_singleton] at hb
      subst hb
      rw [← mapHas_iff_mem, hno] at ha
      exact Bool.noConfusion ha
    · intro clientId r hmem htruthy
      rcases List.mem_append.1 hmem with hmem | hmem
      · obtain ⟨h1, h2⟩ := hret clientId r hmem htruthy
        rw [mapHas_append, h1, mapGet_append_left _ _ _ h1]
        exact ⟨rfl, h2⟩
      · cases List.mem_singleton.1 hmem
        rw [mapHas_append, mapGet_append_new _ _ _ hno]
        simp [mapHas]

theorem Pinned_run (events : List Event) : ∀ b : Binder, Pinned b → Pinned (run b events) := by
  induction events with
  | nil => intro b h; exact h
  | cons e events ih => intro b h; exact ih (step b e) (Pinned_step b e h)

theorem run_append (b : Binder) (events1 events2 : List Event) :
    run b (events1 ++ events2) = run (run b events1) events2 := by
  simp [run, List.foldl_append]

/-- In a map with distinct keys, a key that is present has exactly one entry. -/
theorem one_entry_of_nodup (m : ClientMap) (clientId : ClientId)
    (hnd : (m.map Prod.fst).Nodup) (h : mapHas m clientId = true) :
    (m.filter (fun e => decide (e.1 = clientId))).length = 1 := by
  induction m with
  | nil => simp [mapHas] at h
  | cons e m ih =>
    rw [List.map_cons, List.nodup_cons] at hnd
    by_cases he : e.1 = clientId
    · have hnot : mapHas m clientId = false := by
        rw [← Bool.not_eq_true, mapHas_iff_mem, ← he]
        exact hnd.1
      have hnil : m.filter (fun e => decide (e.1 = clientId)) = [] := by
        rw [List.filter_eq_nil_iff]
        intro a ha hdec
        have : mapHas m clientId = true := by
          rw [mapHas, List.any_eq_true]
          exact ⟨a, ha, hdec⟩
        rw [hnot] at this
        exact Bool.noConfusion this
      simp [List.filter_cons, he, hnil]
    · have h2 : mapHas m clientId = true := by
        simpa [mapHas, he] using h
      simp only [List.filter_cons, he, decide_False, Bool.false_eq_true, if_false]
      exact ih hnd.2 h2

/-- C1. Take any interleaving of calls of `GetCacheForClientId` and of
completions of their `FindNewestCache` lookups, each lookup delivering any
cache or `null`. For a client id that is neither `null` nor empty: all calls
that completed returned the same value; that value is the one entry the map
holds for the id; it is the value delivered to the first lookup that finished
while the map had no entry for the id; and an entry, once present, is never
changed by whatever happens later. -/
theorem pin_once (events : List Event) (clientId : ClientId)
    (hid : clientIdTruthy clientId = true) :
    (∀ r1 r2, (clientId, r1) ∈ (run Binder.initial events).returned →
      (clientId, r2) ∈ (run Binder.initial events).returned → r1 = r2) ∧
    (∀ r, (clientId, r) ∈ (run Binder.initial events).returned →
      ((run Binder.initial events).clientIdToCache.filter
        (fun e => decide (e.1 = clientId))).length = 1 ∧
      mapGet (run Binder.initial events).clientIdToCache clientId = r) ∧
    (∀ events1 i cache events2, events = events1 ++ Event.lookupResolved i cache :: events2 →
      (run Binder.initial events1).waiting.get? i = some clientId →
      mapHas (run Binder.initial events1).clientIdToCache clientId = false →
      mapGet (run Binder.initial events).clientIdToCache clientId = cache ∧
      ∀ r, (clientId, r) ∈ (run Binder.initial events).returned → r = cache) ∧
    (∀ later : List Event, mapHas (run Binder.initial events).clientIdToCache clientId = true →
      mapGet (run (run Binder.initial events) later).clientIdToCache clientId
        = mapGet (run Binder.initial events).clientIdToCache clientId ∧
      ((run (run Binder.initial events) later).clientIdToCache.filter
        (fun e => decide (e.1 = clientId))).length = 1) := by
  have hinv := Pinned_run events Binder.initial Pinned_initial
  refine ⟨?_, ?_, ?_, ?_⟩
  · intro r1 r2 h1 h2
    rw [← (hinv.2 clientId r1 h1 hid).2, ← (hinv.2 clientId r2 h2 hid).2]
  · intro r h
    obtain ⟨h1, h2⟩ := hinv.2 clientId r h hid
    exact ⟨one_entry_of_nodup _ _ hinv.1 h1, h2⟩
  · intro events1 i cache events2 hev hwait hno
    have hget : mapGet (run Binder.initial events).clientIdToCache clientId = cache := by
      rw [hev, run_append]
      have hstep : mapHas (step (run Binder.initial events1)
            (Event.lookupResolved i cache)).clientIdToCache clientId = true ∧
          mapGet (step (run Binder.initial events1)
            (Event.lookupResolved i cache)).clientIdToCache clientId = cache := by
        simp only [step, hwait, GetCacheForClientId_then, hno, Bool.false_eq_true, if_false,
          mapSet]
        rw [mapHas_append, mapGet_append_new _ _ _ hno]
        simp [mapHas]
      have hk := run_keeps_entry events2 _ clientId hstep.1
      show mapGet (run (step (run Binder.initial events1) (Event.lookupResolved i cache))
        events2).clientIdToCache clientId = cache
      rw [hk.2, hstep.2]
    refine ⟨hget, ?_⟩
    intro r hr
    rw [← (hinv.2 clientId r hr hid).2, hget]
  · intro later hhas
    have hk := run_keeps_entry later _ clientId hhas
    have hinv2 := Pinned_run later _ hinv
    exact ⟨hk.2, one_entry_of_nodup _ _ hinv2.1 hk.1⟩

theorem pin_once_witness :
    (run Binder.initial raceEvents).returned
      = [(some "c1".toList, none), (some "c1".toList, none), (some "c1".toList, none)] ∧
    (run Binder.initial raceEvents).clientIdToCache = [(some "c1".toList, none)] ∧
    ∀ r1 r2, (some "c1".toList, r1) ∈ (run Binder.initial raceEvents).returned →
      (some "c1".toList, r2) ∈ (run Binder.initial raceEvents).returned → r1 = r2 :=
  ⟨by decide, by decide, (pin_once raceEvents (some "c1".toList) (by decide)).1⟩

end SW
